import Mathlib

/-!
# CppSPMD: the SSE2 four-lane execution-mask engine

A shallow embedding of `spmd_sse2-i32x4.h`.

* An SSE register is four 32-bit lanes, each held as its bit pattern.
* The process-wide `exec` variable is a field of an explicit state that is
  threaded through every combinator; the other field is whatever the caller's
  bodies act on (variables, memory, an observation log).
* A body is a function from state to an outcome: it returns normally, or an
  exception propagates out of it, or the process aborts on a failed `assert`.
  No combinator in the header has a `try` block or a guard object, so a
  non-returning outcome of a body is the outcome of the combinator.
* `int` is a 32-bit two's complement integer: arithmetic results are wrapped.
* Memory is a total map from `float`-sized element addresses to bit patterns;
  validity and alignment of addresses are left to the host, as in the header.
-/

namespace CppSPMD

/-! ## Lanes and registers -/

/-- A 32-bit lane, held as its bit pattern. -/
abbrev Word32 := Fin 4294967296

namespace Word32

/-- The pattern with every bit set. -/
def allOnes : Word32 := ⟨4294967295, by decide⟩

/-- The pattern with every bit clear. -/
def zero : Word32 := ⟨0, by decide⟩

/-- Bitwise AND of two lanes. -/
def and (a b : Word32) : Word32 :=
  ⟨a.val &&& b.val, lt_of_le_of_lt Nat.and_le_left a.isLt⟩

/-- Bitwise OR of two lanes. -/
def or (a b : Word32) : Word32 :=
  ⟨a.val ||| b.val, Nat.or_lt_two_pow (n := 32) a.isLt b.isLt⟩

/-- Bitwise `(NOT a) AND b`; the complement of a 32-bit `a` is `2^32 - 1 - a`. -/
def andnot (a b : Word32) : Word32 :=
  ⟨(4294967295 - a.val) &&& b.val, lt_of_le_of_lt Nat.and_le_right b.isLt⟩

/-- Two's complement encoding of an integer, reduced to 32 bits. -/
def ofInt (x : Int) : Word32 :=
  ⟨(x % 4294967296).toNat, by omega⟩

/-- Two's complement reading of a lane as a signed integer. -/
def toInt (a : Word32) : Int :=
  if a.val < 2147483648 then (a.val : Int) else (a.val : Int) - 4294967296

/-- Wrapping 32-bit addition. -/
def add (a b : Word32) : Word32 :=
  ⟨(a.val + b.val) % 4294967296, Nat.mod_lt _ (by decide)⟩

/-- The sign bit (bit 31) of a lane. -/
def signBit (a : Word32) : Nat := a.val / 2147483648

/-- A lane read as an IEEE-754 single is a NaN: exponent all ones, mantissa not zero. -/
def isNaN (a : Word32) : Bool := decide (2139095040 < a.val % 2147483648)

/-- A lane read as an IEEE-754 single is `+0.0` or `-0.0`. -/
def isZeroF (a : Word32) : Bool := decide (a.val % 2147483648 = 0)

/-- Ordered floating-point equality of two lanes, as a full-lane boolean: false
when either lane is a NaN, true when both are zeros of either sign, otherwise
equality of the bit patterns (denormals are not flushed, the default mode). -/
def cmpeq (a b : Word32) : Word32 :=
  if !a.isNaN && !b.isNaN && (decide (a = b) || (a.isZeroF && b.isZeroF)) then allOnes else zero

/-- Signed integer less-than of two lanes, as a full-lane boolean. -/
def cmplt_i (a b : Word32) : Word32 :=
  if a.toInt < b.toInt then allOnes else zero

/-- A canonical boolean lane: all bits clear or all bits set. -/
def canonical (a : Word32) : Prop := a = zero ∨ a = allOnes

instance (a : Word32) : Decidable (canonical a) := by
  unfold canonical; exact inferInstance

end Word32

/-- The `__m128` register: four 32-bit lanes, `e0` the lowest. -/
structure m128 where
  e0 : Word32
  e1 : Word32
  e2 : Word32
  e3 : Word32
deriving DecidableEq

/-- The `__m128i` register has the same four 32-bit lanes. -/
abbrev m128i := m128

namespace m128

/-- Lane `i` of a register. -/
def lane (v : m128) (i : Fin 4) : Word32 :=
  match i.val with
  | 0 => v.e0
  | 1 => v.e1
  | 2 => v.e2
  | _ => v.e3

/-- The register with lane `i` replaced. -/
def setLane (v : m128) (i : Fin 4) (x : Word32) : m128 :=
  match i.val with
  | 0 => { v with e0 := x }
  | 1 => { v with e1 := x }
  | 2 => { v with e2 := x }
  | _ => { v with e3 := x }

/-- Apply a lane operation lane by lane. -/
def map2 (f : Word32 → Word32 → Word32) (a b : m128) : m128 :=
  ⟨f a.e0 b.e0, f a.e1 b.e1, f a.e2 b.e2, f a.e3 b.e3⟩

/-- Every lane is a canonical boolean. -/
def canonical (v : m128) : Prop :=
  v.e0.canonical ∧ v.e1.canonical ∧ v.e2.canonical ∧ v.e3.canonical

instance (v : m128) : Decidable (canonical v) := by
  unfold canonical; exact inferInstance

end m128

/-- The canonical register whose lane `i` is all ones exactly when `bi` holds. -/
def m128.ofBools (b0 b1 b2 b3 : Bool) : m128 :=
  ⟨if b0 then Word32.allOnes else Word32.zero, if b1 then Word32.allOnes else Word32.zero,
   if b2 then Word32.allOnes else Word32.zero, if b3 then Word32.allOnes else Word32.zero⟩

/-- The register holding the four given bit patterns, lowest lane first. -/
def m128.ofNats (n0 n1 n2 n3 : Nat) : m128 :=
  ⟨Fin.ofNat n0, Fin.ofNat n1, Fin.ofNat n2, Fin.ofNat n3⟩

/-! ## The SSE2 intrinsics the header uses -/

def _mm_setzero_ps : m128 := ⟨Word32.zero, Word32.zero, Word32.zero, Word32.zero⟩

def _mm_and_ps (a b : m128) : m128 := m128.map2 Word32.and a b

def _mm_or_ps (a b : m128) : m128 := m128.map2 Word32.or a b

def _mm_andnot_ps (a b : m128) : m128 := m128.map2 Word32.andnot a b

def _mm_cmpeq_ps (a b : m128) : m128 := m128.map2 Word32.cmpeq a b

/-- The four sign bits, lane `i` at bit `i`. -/
def _mm_movemask_ps (a : m128) : Nat :=
  a.e0.signBit + 2 * a.e1.signBit + 4 * a.e2.signBit + 8 * a.e3.signBit

def _mm_set1_epi32 (x : Int) : m128i :=
  ⟨Word32.ofInt x, Word32.ofInt x, Word32.ofInt x, Word32.ofInt x⟩

/-- The arguments are given highest lane first. -/
def _mm_set_epi32 (x3 x2 x1 x0 : Int) : m128i :=
  ⟨Word32.ofInt x0, Word32.ofInt x1, Word32.ofInt x2, Word32.ofInt x3⟩

def _mm_add_epi32 (a b : m128i) : m128i := m128.map2 Word32.add a b

def _mm_cmplt_epi32 (a b : m128i) : m128i := m128.map2 Word32.cmplt_i a b

def _mm_castsi128_ps (a : m128i) : m128 := a

/-- The lowest lane as a signed `int`. -/
def _mm_cvtsi128_si32 (a : m128i) : Int := a.e0.toInt

/-! ## Masks and vector types -/

structure exec_t where
  _mask : m128
deriving DecidableEq

/-- The header's `operator&` on `exec_t`. -/
def exec_t.and (a b : exec_t) : exec_t :=
  ⟨_mm_and_ps a._mask b._mask⟩

/-- The header's `operator~` on `exec_t`. -/
def exec_t.not (a : exec_t) : exec_t :=
  ⟨_mm_cmpeq_ps a._mask _mm_setzero_ps⟩

/-- Initial value of the global `exec`. -/
def exec_init : exec_t := ⟨_mm_cmpeq_ps _mm_setzero_ps _mm_setzero_ps⟩

/-- Lane `i` is active: the bit `_mm_movemask_ps` reports for it is set. -/
def exec_t.active (m : exec_t) (i : Fin 4) : Prop :=
  (m._mask.lane i).signBit = 1

instance (m : exec_t) (i : Fin 4) : Decidable (m.active i) := by
  unfold exec_t.active; exact inferInstance

structure vbool where
  _value : m128
deriving DecidableEq

structure vfloat where
  _value : m128
deriving DecidableEq

structure lint where
  _value : m128i
deriving DecidableEq

/-- The header's `vfloat::operator=`, under the current mask `exec`; the result is
the new content of the destination. -/
def vfloat.assign (exec : exec_t) (self other : vfloat) : vfloat :=
  ⟨_mm_or_ps (_mm_and_ps exec._mask other._value) (_mm_andnot_ps exec._mask self._value)⟩

/-! ## State, outcomes and bodies -/

/-- The global `exec` together with everything else the bodies act on. -/
structure SpmdState (σ : Type) where
  exec : exec_t
  user : σ

/-- How a call ends, with the state at that moment: a normal return, an
exception propagating out, an abort on a failed `assert`, or (in this model
only) the iteration budget of a loop running out before the loop condition
fails. -/
inductive Outcome (σ : Type) where
  | returned (s : SpmdState σ)
  | thrown (s : SpmdState σ)
  | aborted (s : SpmdState σ)
  | unfinished (s : SpmdState σ)

namespace Outcome

/-- Sequencing: the continuation runs only after a normal return. -/
def bind {σ : Type} (r : Outcome σ) (k : SpmdState σ → Outcome σ) : Outcome σ :=
  match r with
  | returned s => k s
  | thrown s => thrown s
  | aborted s => aborted s
  | unfinished s => unfinished s

/-- The state at the end of the call. -/
def state {σ : Type} : Outcome σ → SpmdState σ
  | returned s => s
  | thrown s => s
  | aborted s => s
  | unfinished s => s

/-- The call returned normally. -/
def isReturned {σ : Type} : Outcome σ → Bool
  | returned _ => true
  | _ => false

/-- Transport the user part of the final state. -/
def mapUser {σ τ : Type} (f : σ → τ) : Outcome σ → Outcome τ
  | returned s => returned ⟨s.exec, f s.user⟩
  | thrown s => thrown ⟨s.exec, f s.user⟩
  | aborted s => aborted ⟨s.exec, f s.user⟩
  | unfinished s => unfinished ⟨s.exec, f s.user⟩

end Outcome

/-- A callable without arguments, as passed to `spmd_if` and `spmd_ifelse`. -/
abbrev Body (σ : Type) := SpmdState σ → Outcome σ

/-- A callable taking the lane-index vector, as passed to `spmd_foreach`. -/
abbrev ForeachBody (σ : Type) := lint → SpmdState σ → Outcome σ

/-! ## Control-flow combinators -/

/-- The header's `spmd_if`. -/
def spmd_if {σ : Type} (cond : vbool) (ifBody : Body σ) (s : SpmdState σ) : Outcome σ :=
  -- save old execution mask
  let old_exec := s.exec
  -- apply "if" mask
  let s1 : SpmdState σ := { s with exec := s.exec.and ⟨cond._value⟩ }
  -- "all off" optimization
  let mask := _mm_movemask_ps s1.exec._mask
  Outcome.bind (if mask ≠ 0 then ifBody s1 else Outcome.returned s1) fun s2 =>
  -- restore execution mask
  Outcome.returned { s2 with exec := old_exec }

/-- The header's `spmd_ifelse`. -/
def spmd_ifelse {σ : Type} (cond : vbool) (ifBody elseBody : Body σ) (s : SpmdState σ) :
    Outcome σ :=
  let old_exec := s.exec
  let s1 : SpmdState σ := { s with exec := s.exec.and ⟨cond._value⟩ }
  let mask := _mm_movemask_ps s1.exec._mask
  Outcome.bind (if mask ≠ 0 then ifBody s1 else Outcome.returned s1) fun s2 =>
  -- invert mask for "else"
  let s3 : SpmdState σ := { s2 with exec := s2.exec.not.and old_exec }
  let mask := _mm_movemask_ps s3.exec._mask
  Outcome.bind (if mask ≠ 0 then elseBody s3 else Outcome.returned s3) fun s4 =>
  Outcome.returned { s4 with exec := old_exec }

/-- Wrapped 32-bit result of an `int` operation. -/
def wrap32 (x : Int) : Int := (Word32.ofInt x).toInt

/-- The value is representable as a 32-bit `int`. -/
def isInt32 (x : Int) : Prop := -2147483648 ≤ x ∧ x < 2147483648

instance (x : Int) : Decidable (isInt32 x) := by
  unfold isInt32; exact inferInstance

def programIndex : lint := ⟨_mm_set_epi32 3 2 1 0⟩

def programCount : Int := 4

/-- The header's `operator+(const lint&, int)`. -/
def lint.add_int (a : lint) (b : Int) : lint :=
  ⟨_mm_add_epi32 a._value (_mm_set1_epi32 b)⟩

/-- The header's `operator+(int, const lint&)`. -/
def lint.int_add (a : Int) (b : lint) : lint :=
  ⟨_mm_add_epi32 (_mm_set1_epi32 a) b._value⟩

/-- The part of `spmd_foreach` after the loop: the partial iteration. -/
def foreachPartial {σ : Type} (numPartialLoops : Int) (foreachBody : ForeachBody σ)
    (loopIndex : m128i) (s : SpmdState σ) : Outcome σ :=
  if numPartialLoops > 0 then
    -- save old execution mask
    let old_exec := s.exec
    -- apply mask for partial loop
    let partialMask : exec_t :=
      ⟨_mm_castsi128_ps (_mm_cmplt_epi32 programIndex._value (_mm_set1_epi32 numPartialLoops))⟩
    let s1 : SpmdState σ := { s with exec := s.exec.and partialMask }
    -- do the partial loop
    Outcome.bind (foreachBody ⟨loopIndex⟩ s1) fun s2 =>
    -- restore execution mask
    Outcome.returned { s2 with exec := old_exec }
  else Outcome.returned s

/-- The `for` loop of `spmd_foreach` from the point where its condition is
tested, followed by the rest of the function. The first argument bounds the
number of iterations still allowed. -/
def foreachLoop {σ : Type} (numFullLoops numPartialLoops : Int) (foreachBody : ForeachBody σ) :
    Nat → Int → m128i → SpmdState σ → Outcome σ
  | 0, i, loopIndex, s =>
    if i < numFullLoops then Outcome.unfinished s
    else foreachPartial numPartialLoops foreachBody loopIndex s
  | fuel + 1, i, loopIndex, s =>
    if i < numFullLoops then
      Outcome.bind (foreachBody ⟨loopIndex⟩ s) fun s1 =>
      foreachLoop numFullLoops numPartialLoops foreachBody fuel (wrap32 (i + programCount))
        (_mm_add_epi32 loopIndex (_mm_set1_epi32 programCount)) s1
    else foreachPartial numPartialLoops foreachBody loopIndex s

/-- The header's `spmd_foreach`. The `assert` is active. The loop is allowed
`numFullLoops` iterations, which is at least the `numFullLoops / 4` it makes. -/
def spmd_foreach {σ : Type} (first last : Int) (foreachBody : ForeachBody σ)
    (s : SpmdState σ) : Outcome σ :=
  -- assert(first <= last)
  if ¬ first ≤ last then Outcome.aborted s
  else
    let numFullLoops := wrap32 (Int.tdiv (wrap32 (last - first)) programCount * programCount)
    let numPartialLoops := Int.tmod (wrap32 (last - first)) programCount
    let loopIndex := _mm_add_epi32 programIndex._value (_mm_set1_epi32 first)
    foreachLoop numFullLoops numPartialLoops foreachBody numFullLoops.toNat 0 loopIndex s

/-! ## Memory and masked memory references -/

/-- Memory, addressed in units of one `float`. -/
abbrev Mem := Int → Word32

/-- One scalar store. -/
def Mem.write (mem : Mem) (p : Int) (x : Word32) : Mem :=
  fun q => if q = p then x else mem q

/-- Vector store of four consecutive elements. -/
def _mm_store_ps (mem : Mem) (p : Int) (a : m128) : Mem :=
  fun q =>
    if q = p then a.e0
    else if q = p + 1 then a.e1
    else if q = p + 2 then a.e2
    else if q = p + 3 then a.e3
    else mem q

/-- Vector load of four consecutive elements. -/
def _mm_load_ps (mem : Mem) (p : Int) : m128 :=
  ⟨mem p, mem (p + 1), mem (p + 2), mem (p + 3)⟩

/-- A `float*` is an element address. -/
structure vfloat_ref where
  _value : Int
deriving DecidableEq

/-- The header's `vfloat_ref::operator=` (scatter) under the current mask; the
result is the memory afterwards. -/
def vfloat_ref.assign (exec : exec_t) (mem : Mem) (self : vfloat_ref) (other : vfloat) : Mem :=
  let mask := _mm_movemask_ps exec._mask
  if mask = 15 then
    -- "all on" optimization: vector store
    _mm_store_ps mem self._value other._value
  else
    -- hand-written masked store
    let stored := other._value
    ([0, 1, 2, 3] : List (Fin 4)).foldl
      (fun m i => if mask &&& (1 <<< i.val) ≠ 0 then m.write (self._value + i.val) (stored.lane i)
        else m) mem

/-- The header's `vfloat_ref::operator vfloat` (gather) under the current mask.
The local array `loaded` is not initialised by the header; `loaded0` is
whatever it holds on entry. -/
def vfloat_ref.load (exec : exec_t) (mem : Mem) (self : vfloat_ref) (loaded0 : m128) : vfloat :=
  let mask := _mm_movemask_ps exec._mask
  if mask = 15 then
    -- "all on" optimization: vector load
    ⟨_mm_load_ps mem self._value⟩
  else
    -- hand-written masked load
    ⟨([0, 1, 2, 3] : List (Fin 4)).foldl
      (fun l i => if mask &&& (1 <<< i.val) ≠ 0 then l.setLane i (mem (self._value + i.val))
        else l) loaded0⟩

/-- The header's `lint::operator[]`. -/
def lint.index (self : lint) (ptr : Int) : vfloat_ref :=
  ⟨ptr + _mm_cvtsi128_si32 self._value⟩

/-! ## Observing invocations -/

/-- A body with a probe in front: each invocation first appends `f` of the
mask in force at that moment to a log kept next to the caller's own state,
then runs `b` on the caller's state. -/
def probe {σ α : Type} (f : exec_t → α) (b : Body σ) : Body (σ × List α) := fun s =>
  (b ⟨s.exec, s.user.1⟩).mapUser fun u => (u, s.user.2 ++ [f s.exec])

/-- The body `b`, logging the mask each invocation starts under. -/
def observed {σ : Type} (b : Body σ) : Body (σ × List exec_t) := probe id b

/-- The loop body `b`, logging the index vector each invocation receives and
the mask it starts under. -/
def observedIdx {σ : Type} (b : ForeachBody σ) : ForeachBody (σ × List (lint × exec_t)) :=
  fun idx => probe (fun m => (idx, m)) (b idx)

/-- The values of the lanes of an index vector that are active in the mask
logged with it, lowest lane first. -/
def activeValues (e : lint × exec_t) : List Int :=
  (([0, 1, 2, 3] : List (Fin 4)).filter fun i => e.2.active i).map fun i =>
    (e.1._value.lane i).toInt

/-- The log of an outcome of an observed run. -/
def Outcome.log {σ α : Type} (r : Outcome (σ × List α)) : List α := r.state.user.2

/-- The body returns normally from every state. -/
def Body.returns {σ : Type} (b : Body σ) : Prop :=
  ∀ s, (b s).isReturned = true

/-- The body returns normally from every state and leaves the mask as it
found it; what it does to the caller's state is not constrained. -/
def Body.keepsMask {σ : Type} (b : Body σ) : Prop :=
  ∀ s, ∃ u, b s = Outcome.returned ⟨s.exec, u⟩

/-- The index vector whose lane `i` encodes `base + i`. -/
def laneIndices (base : Int) : lint :=
  ⟨⟨Word32.ofInt base, Word32.ofInt (base + 1), Word32.ofInt (base + 2), Word32.ofInt (base + 3)⟩⟩

/-- The canonical mask whose lane `i` is on exactly when `i < p`. -/
def firstLanes (p : Int) : exec_t :=
  ⟨m128.ofBools (decide (0 < p)) (decide (1 < p)) (decide (2 < p)) (decide (3 < p))⟩

/-- The loop body returns from every call with the mask as it found it. -/
def ForeachBody.keepsMask {σ : Type} (b : ForeachBody σ) : Prop :=
  ∀ idx, Body.keepsMask (b idx)

/-- The call ended in the abort of a failed `assert`. -/
def Outcome.isAborted {σ : Type} : Outcome σ → Bool
  | Outcome.aborted _ => true
  | _ => false

/-- The hand-written masked store of the scatter (its general path), as a
function of the mask bits: element `i` of the scratch array goes to `p[i]`
when bit `i` is set. -/
def maskedStore (mask : Nat) (mem : Mem) (p : Int) (stored : m128) : Mem :=
  ([0, 1, 2, 3] : List (Fin 4)).foldl
    (fun m i => if mask &&& (1 <<< i.val) ≠ 0 then m.write (p + i.val) (stored.lane i) else m) mem

/-- The hand-written masked load of the gather (its general path), as a
function of the mask bits: `p[i]` goes to element `i` of the scratch array
when bit `i` is set. -/
def maskedLoad (mask : Nat) (mem : Mem) (p : Int) (loaded0 : m128) : m128 :=
  ([0, 1, 2, 3] : List (Fin 4)).foldl
    (fun l i => if mask &&& (1 <<< i.val) ≠ 0 then l.setLane i (mem (p + i.val)) else l) loaded0

/-- The gather as a step on the whole state (current mask and memory): the
conversion is a `const` member that stores only into its local array, so the
state comes back as it went in. -/
def vfloat_ref.gather (self : vfloat_ref) (loaded0 : m128) (s : SpmdState Mem) :
    vfloat × SpmdState Mem :=
  (self.load s.exec s.user loaded0, s)

/-- The order key of a lane read as an IEEE-754 single that is not a NaN: the
magnitude bits, negated when the sign bit is set (both zeros get key 0). -/
def Word32.floatKey (a : Word32) : Int :=
  if a.val < 2147483648 then (a.val : Int) else -((a.val : Int) - 2147483648)

/-- Ordered floating-point less-than of two lanes, as a full-lane boolean:
false when either lane is a NaN. -/
def Word32.cmplt_f (a b : Word32) : Word32 :=
  if !a.isNaN && !b.isNaN && decide (a.floatKey < b.floatKey) then Word32.allOnes
  else Word32.zero

def _mm_cmplt_ps (a b : m128) : m128 := m128.map2 Word32.cmplt_f a b

/-- A `float` is given by its bit pattern. -/
def _mm_set1_ps (x : Word32) : m128 := ⟨x, x, x, x⟩

/-- The header's `operator<(const vfloat&, float)`. -/
def vfloat.lt (a : vfloat) (b : Word32) : vbool :=
  ⟨_mm_cmplt_ps a._value (_mm_set1_ps b)⟩

/-- The body `[&] { v = w; }`, the caller's state being the variable `v`. -/
def assignBody (w : vfloat) : Body vfloat := fun s =>
  Outcome.returned ⟨s.exec, vfloat.assign s.exec s.user w⟩

/-- The vector `[-1.0f, 2.0f, -3.0f, 4.0f]`. -/
def scenarioX : vfloat := ⟨m128.ofNats 3212836864 1073741824 3225419776 1082130432⟩

/-- A program built from the three combinators, in any nesting and sequence.
`point` marks a place where the current mask is looked at. -/
inductive Prog where
  | point : Prog
  | seq (p q : Prog) : Prog
  | ifc (cond : vbool) (p : Prog) : Prog
  | ifelse (cond : vbool) (p q : Prog) : Prog
  | foreach (first last : Int) (body : lint → Prog) : Prog

/-- Running a program: each `point` appends the mask in force to the log, the
other constructors are the header's combinators and sequencing. -/
def Prog.run : Prog → Body (List exec_t)
  | Prog.point => fun s => Outcome.returned ⟨s.exec, s.user ++ [s.exec]⟩
  | Prog.seq p q => fun s => (p.run s).bind q.run
  | Prog.ifc cond p => spmd_if cond p.run
  | Prog.ifelse cond p q => spmd_ifelse cond p.run q.run
  | Prog.foreach first last body => spmd_foreach first last fun idx => (body idx).run

/-- Every condition passed to a combinator in the program has canonical lanes. -/
def Prog.condsCanonical : Prog → Prop
  | Prog.point => True
  | Prog.seq p q => p.condsCanonical ∧ q.condsCanonical
  | Prog.ifc cond p => cond._value.canonical ∧ p.condsCanonical
  | Prog.ifelse cond p q => cond._value.canonical ∧ p.condsCanonical ∧ q.condsCanonical
  | Prog.foreach _ _ body => ∀ idx, (body idx).condsCanonical

/-- A body keeps the canonical-mask discipline: entered with a canonical mask
and a log of canonical masks, it ends with a log of canonical masks, and when
it returns the mask is the one it was entered with. -/
def Body.canonicalSafe (b : Body (List exec_t)) : Prop :=
  ∀ s : SpmdState (List exec_t), s.exec._mask.canonical →
    (∀ m ∈ s.user, m._mask.canonical) →
    (∀ m ∈ (b s).state.user, m._mask.canonical) ∧
      ∀ s', b s = Outcome.returned s' → s'.exec = s.exec

/-- A program used as an example: a point, then an `spmd_if` holding a point
and an `spmd_ifelse` whose else branch is an `spmd_foreach` over `[0, 6)`. -/
def sampleProg : Prog :=
  Prog.seq Prog.point
    (Prog.ifc ⟨m128.ofBools true true false false⟩
      (Prog.seq Prog.point
        (Prog.ifelse ⟨m128.ofBools false true true true⟩ Prog.point
          (Prog.foreach 0 6 fun _ => Prog.point))))

/-- What a body of assignments and scatters acts on: the `vfloat` variables,
by number, and memory. -/
abbrev Store := (Nat → vfloat) × Mem

/-- One statement of a body: a masked assignment `v = rhs` to the variable
numbered `dst`, or a masked scatter `ref = rhs`. The right-hand side and the
reference are computed at full width from the mask, the variables and memory. -/
inductive Stmt where
  | assign (dst : Nat) (rhs : exec_t → Store → vfloat) : Stmt
  | scatter (ref : exec_t → Store → vfloat_ref) (rhs : exec_t → Store → vfloat) : Stmt

/-- The effect of one statement under the current mask. -/
def Stmt.step (exec : exec_t) (st : Store) : Stmt → Store
  | Stmt.assign dst rhs =>
    (Function.update st.1 dst (vfloat.assign exec (st.1 dst) (rhs exec st)), st.2)
  | Stmt.scatter ref rhs => (st.1, (ref exec st).assign exec st.2 (rhs exec st))

/-- The body that runs the statements in order. -/
def stmtsBody (l : List Stmt) : Body Store := fun s =>
  Outcome.returned ⟨s.exec, l.foldl (fun st c => c.step s.exec st) s.user⟩

/-- The variant of `spmd_if` without the all-off skip, as the spec's note on
the combinators describes it: the body is invoked whatever the narrowed mask. -/
def spmd_if_always {σ : Type} (cond : vbool) (ifBody : Body σ) (s : SpmdState σ) : Outcome σ :=
  let old_exec := s.exec
  let s1 : SpmdState σ := { s with exec := s.exec.and ⟨cond._value⟩ }
  Outcome.bind (ifBody s1) fun s2 =>
  Outcome.returned { s2 with exec := old_exec }

/-- The variant of `spmd_ifelse` without the all-off skips: both bodies are
invoked whatever their masks. -/
def spmd_ifelse_always {σ : Type} (cond : vbool) (ifBody elseBody : Body σ)
    (s : SpmdState σ) : Outcome σ :=
  let old_exec := s.exec
  let s1 : SpmdState σ := { s with exec := s.exec.and ⟨cond._value⟩ }
  Outcome.bind (ifBody s1) fun s2 =>
  let s3 : SpmdState σ := { s2 with exec := s2.exec.not.and old_exec }
  Outcome.bind (elseBody s3) fun s4 =>
  Outcome.returned { s4 with exec := old_exec }

/-- The loop body `[&](const lint& idx) { idx[buf] = value; }`, the caller's
state being memory; `value` may depend on the index vector. -/
def scatterBody (buf : Int) (value : lint → vfloat) : ForeachBody Mem := fun idx s =>
  Outcome.returned ⟨s.exec, (idx.index buf).assign s.exec s.user (value idx)⟩

/-- What `spmd_foreach(first, last, scatterBody)` is to leave in `buf[j]`: the
lane `(j - first) mod 4` of the value computed for the invocation that covers
`j`, whose index vector starts at `first + 4 * floor((j - first) / 4)`. -/
def scatterExpected (first : Int) (value : lint → vfloat) (j : Int) : Word32 :=
  (value (laneIndices (first + 4 * ((j - first) / 4))))._value.lane
    (Fin.ofNat ((j - first) % 4).toNat)

/-- Between `mem` and `mem'` exactly the elements `buf[lo .. hi)` were written,
each with its expected value. -/
def writtenRange (first buf : Int) (value : lint → vfloat) (lo hi : Int) (mem mem' : Mem) :
    Prop :=
  (∀ a : Int, (a < buf + lo ∨ buf + hi ≤ a) → mem' a = mem a)
    ∧ (∀ j : Int, lo ≤ j → j < hi → mem' (buf + j) = scatterExpected first value j)

/-! ## Sample values -/

/-- A body that does nothing. -/
def skipBody {σ : Type} : Body σ := fun s => Outcome.returned s

/-- A body that raises an exception at once. -/
def throwingBody {σ : Type} : Body σ := fun s => Outcome.thrown s

/-- A loop body that does nothing. -/
def skipLoopBody {σ : Type} : ForeachBody σ := fun _ s => Outcome.returned s

/-! ## Basic facts about lanes and masks -/

theorem Word32.signBit_cases (a : Word32) : a.signBit = 0 ∨ a.signBit = 1 := by
  have h := a.isLt
  unfold Word32.signBit
  omega

theorem movemask_ne_zero_iff (m : exec_t) :
    _mm_movemask_ps m._mask ≠ 0 ↔ ∃ i : Fin 4, m.active i := by
  unfold _mm_movemask_ps exec_t.active
  constructor
  · intro h
    by_contra hne
    push_neg at hne
    have h0 := hne 0
    have h1 := hne 1
    have h2 := hne 2
    have h3 := hne 3
    simp only [m128.lane] at h0 h1 h2 h3
    rcases Word32.signBit_cases m._mask.e0 with a0 | a0 <;>
    rcases Word32.signBit_cases m._mask.e1 with a1 | a1 <;>
    rcases Word32.signBit_cases m._mask.e2 with a2 | a2 <;>
    rcases Word32.signBit_cases m._mask.e3 with a3 | a3 <;>
    simp_all
  · rintro ⟨i, hi⟩
    fin_cases i <;> simp [m128.lane] at hi <;> omega

theorem Word32.signBit_and_le (a b : Word32) : (a.and b).signBit ≤ a.signBit := by
  have h : a.val &&& b.val ≤ a.val := Nat.and_le_left
  unfold Word32.signBit Word32.and
  simp only
  omega

theorem movemask_and_eq_zero (a b : exec_t) (h : _mm_movemask_ps a._mask = 0) :
    _mm_movemask_ps (a.and b)._mask = 0 := by
  have h0 := Word32.signBit_and_le a._mask.e0 b._mask.e0
  have h1 := Word32.signBit_and_le a._mask.e1 b._mask.e1
  have h2 := Word32.signBit_and_le a._mask.e2 b._mask.e2
  have h3 := Word32.signBit_and_le a._mask.e3 b._mask.e3
  unfold _mm_movemask_ps at h ⊢
  simp only [exec_t.and, _mm_and_ps, m128.map2]
  omega

/-! ## Outcomes, probes and the mask discipline of `spmd_if` -/

theorem probe_log {σ α : Type} (f : exec_t → α) (b : Body σ) (s : SpmdState (σ × List α)) :
    (probe f b s).log = s.user.2 ++ [f s.exec] := by
  unfold probe Outcome.log
  cases b ⟨s.exec, s.user.1⟩ <;> rfl

theorem probe_returns {σ α : Type} (f : exec_t → α) (b : Body σ) (h : b.returns) :
    (probe f b).returns := by
  intro s
  have hs := h ⟨s.exec, s.user.1⟩
  unfold probe
  cases hb : b ⟨s.exec, s.user.1⟩ <;> simp_all [Outcome.mapUser, Outcome.isReturned]

theorem probe_keepsMask {σ α : Type} (f : exec_t → α) (b : Body σ) (h : b.keepsMask)
    (s : SpmdState (σ × List α)) :
    ∃ u, probe f b s = Outcome.returned ⟨s.exec, (u, s.user.2 ++ [f s.exec])⟩ := by
  obtain ⟨u, hu⟩ := h ⟨s.exec, s.user.1⟩
  exact ⟨u, by simp [probe, hu, Outcome.mapUser]⟩

theorem Outcome.bind_returned {σ : Type} (s : SpmdState σ) (k : SpmdState σ → Outcome σ) :
    (Outcome.returned s).bind k = k s := rfl

theorem log_bind_restore {σ α : Type} (r : Outcome (σ × List α)) (e : exec_t) :
    (r.bind fun s2 => Outcome.returned { s2 with exec := e }).log = r.log := by
  cases r <;> rfl

theorem spmd_if_probe_log {σ α : Type} (f : exec_t → α) (cond : vbool) (b : Body σ)
    (s : SpmdState (σ × List α)) :
    (spmd_if cond (probe f b) s).log =
      s.user.2 ++ (if _mm_movemask_ps (s.exec.and ⟨cond._value⟩)._mask ≠ 0
        then [f (s.exec.and ⟨cond._value⟩)] else []) := by
  unfold spmd_if
  simp only [log_bind_restore]
  split
  · rw [probe_log]
  · simp [Outcome.log, Outcome.state]

theorem spmd_if_returns {σ : Type} (cond : vbool) (b : Body σ) (h : b.returns)
    (s : SpmdState σ) : ∃ u, spmd_if cond b s = Outcome.returned ⟨s.exec, u⟩ := by
  unfold spmd_if
  simp only
  split
  · have hs := h { s with exec := s.exec.and ⟨cond._value⟩ }
    cases hb : b { s with exec := s.exec.and ⟨cond._value⟩ } with
    | returned t => exact ⟨t.user, rfl⟩
    | thrown t => simp [hb, Outcome.isReturned] at hs
    | aborted t => simp [hb, Outcome.isReturned] at hs
    | unfinished t => simp [hb, Outcome.isReturned] at hs
  · exact ⟨s.user, rfl⟩

theorem exec_and_lane (a b : exec_t) (i : Fin 4) :
    ((a.and b)._mask.lane i).val = (a._mask.lane i).val &&& (b._mask.lane i).val := by
  fin_cases i <;> rfl

/-! ## C1: `spmd_if` invokes its body at most once, under the narrowed mask -/

/-- C1. For every ambient mask `M0`, every condition and every body, the log of
masks observed at the start of the body during `spmd_if(cond, body)` is the
single entry `M0 AND cond` when that mask has at least one active lane, and is
empty when it has none: the body runs exactly once under the narrowed mask in
the first case and not at all in the second. The narrowed mask is the
lane-wise bitwise AND of `M0` and the condition. -/
theorem spmd_if_invokes_body_once {σ : Type} (cond : vbool) (body : Body σ)
    (M0 : exec_t) (u : σ) :
    (spmd_if cond (observed body) ⟨M0, (u, [])⟩).log =
        (if ∃ i : Fin 4, (M0.and ⟨cond._value⟩).active i then [M0.and ⟨cond._value⟩] else [])
      ∧ ∀ i : Fin 4, ((M0.and ⟨cond._value⟩)._mask.lane i).val =
          (M0._mask.lane i).val &&& (cond._value.lane i).val := by
  refine ⟨?_, fun i => exec_and_lane M0 ⟨cond._value⟩ i⟩
  unfold observed
  rw [spmd_if_probe_log]
  simp only [List.nil_append, movemask_ne_zero_iff, id]

theorem Word32.land_ones (x : Nat) (h : x < 4294967296) : x &&& 4294967295 = x := by
  have h2 := Nat.and_pow_two_sub_one_eq_mod x 32
  norm_num at h2
  rw [h2]
  omega

theorem Word32.and_allOnes (m : Word32) : m.and Word32.allOnes = m := by
  apply Fin.ext
  exact Word32.land_ones m.val m.isLt

theorem Word32.allOnes_and (m : Word32) : Word32.allOnes.and m = m := by
  apply Fin.ext
  show 4294967295 &&& m.val = m.val
  rw [Nat.and_comm]
  exact Word32.land_ones m.val m.isLt

theorem Word32.and_zero (m : Word32) : m.and Word32.zero = Word32.zero := by
  apply Fin.ext
  exact Nat.and_zero m.val

theorem Word32.zero_and (m : Word32) : Word32.zero.and m = Word32.zero := by
  apply Fin.ext
  exact Nat.zero_and m.val

theorem Word32.andnot_zero (m : Word32) : Word32.zero.andnot m = m := by
  apply Fin.ext
  show (4294967295 - 0) &&& m.val = m.val
  rw [Nat.and_comm]
  exact Word32.land_ones m.val m.isLt

theorem Word32.andnot_allOnes (m : Word32) : Word32.allOnes.andnot m = Word32.zero := by
  apply Fin.ext
  show (4294967295 - 4294967295) &&& m.val = 0
  simp

theorem Word32.or_zero (m : Word32) : m.or Word32.zero = m := by
  apply Fin.ext
  exact Nat.or_zero m.val

theorem Word32.zero_or (m : Word32) : Word32.zero.or m = m := by
  apply Fin.ext
  exact Nat.zero_or m.val

theorem spmd_if_exec {σ : Type} (cond : vbool) (b : Body σ) (s s' : SpmdState σ)
    (h : spmd_if cond b s = Outcome.returned s') : s'.exec = s.exec := by
  unfold spmd_if at h
  simp only at h
  split at h
  · cases hb : b { s with exec := s.exec.and ⟨cond._value⟩ } <;>
      simp [hb, Outcome.bind] at h
    subst h
    rfl
  · simp only [Outcome.bind, Outcome.returned.injEq] at h
    subst h
    rfl

theorem spmd_if_log {σ α : Type} (cond : vbool) (b : Body (σ × List α))
    (s : SpmdState (σ × List α)) :
    (spmd_if cond b s).log =
      (if _mm_movemask_ps (s.exec.and ⟨cond._value⟩)._mask ≠ 0
        then (b ⟨s.exec.and ⟨cond._value⟩, s.user⟩).log else s.user.2) := by
  unfold spmd_if
  simp only [log_bind_restore]
  split <;> rfl

/-! ## C2: nested `spmd_if` -/

/-- C2. Nesting round-trip. For every ambient mask `M0`, every pair of
conditions and every body, in `spmd_if(c1, [] { spmd_if(c2, body); })` the body
runs at most once and the mask it observes is `M0 AND c1 AND c2` (it runs
exactly when that mask has an active lane); whenever the nested call returns,
the current mask is `M0` again, whatever the body did to the caller's state or
to the mask; and the nested call does return when the body returns. -/
theorem spmd_if_nested_round_trip {σ : Type} (c1 c2 : vbool) (body : Body σ)
    (M0 : exec_t) (u : σ) :
    (spmd_if c1 (spmd_if c2 (observed body)) ⟨M0, (u, [])⟩).log =
        (if ∃ i : Fin 4, ((M0.and ⟨c1._value⟩).and ⟨c2._value⟩).active i
          then [(M0.and ⟨c1._value⟩).and ⟨c2._value⟩] else [])
      ∧ (∀ s', spmd_if c1 (spmd_if c2 (observed body)) ⟨M0, (u, [])⟩ = Outcome.returned s' →
          s'.exec = M0)
      ∧ (body.returns →
          ∃ u', spmd_if c1 (spmd_if c2 (observed body)) ⟨M0, (u, [])⟩ =
            Outcome.returned ⟨M0, u'⟩) := by
  refine ⟨?_, ?_, ?_⟩
  · rw [spmd_if_log]
    unfold observed
    rw [spmd_if_probe_log]
    simp only [List.nil_append, id]
    by_cases h1 : _mm_movemask_ps (M0.and ⟨c1._value⟩)._mask = 0
    · have h2 := movemask_and_eq_zero (M0.and ⟨c1._value⟩) ⟨c2._value⟩ h1
      have h3 : ¬ ∃ i : Fin 4, ((M0.and ⟨c1._value⟩).and ⟨c2._value⟩).active i := by
        rw [← movemask_ne_zero_iff]
        simp [h2]
      simp [h1, h3]
    · simp only [ne_eq, h1, not_false_eq_true, if_true, ← movemask_ne_zero_iff]
  · intro s' h
    exact spmd_if_exec c1 _ _ s' h
  · intro hret
    have hinner : Body.returns (spmd_if c2 (observed body)) := by
      intro t
      obtain ⟨w, hw⟩ := spmd_if_returns c2 (observed body) (probe_returns id body hret) t
      rw [hw]
      rfl
    exact spmd_if_returns c1 _ hinner ⟨M0, (u, [])⟩

/-- C2, witness: the nested call at the initial mask with two overlapping
conditions returns with the initial mask, the body having run once under
their intersection. -/
theorem spmd_if_nested_round_trip_witness :
    (∃ u', spmd_if ⟨m128.ofBools true true false false⟩
        (spmd_if ⟨m128.ofBools false true true false⟩ (observed (skipBody : Body Unit)))
        ⟨exec_init, ((), [])⟩ = Outcome.returned ⟨exec_init, u'⟩)
      ∧ (spmd_if ⟨m128.ofBools true true false false⟩
        (spmd_if ⟨m128.ofBools false true true false⟩ (observed (skipBody : Body Unit)))
        ⟨exec_init, ((), [])⟩).log = [⟨m128.ofBools false true false false⟩] :=
  ⟨(spmd_if_nested_round_trip ⟨m128.ofBools true true false false⟩
      ⟨m128.ofBools false true true false⟩ (skipBody : Body Unit) exec_init ()).2.2 (fun _ => rfl),
   by decide⟩

/-! ## C3: the two branches of `spmd_ifelse` -/

theorem Word32.blend (m o v : Word32) (hm : m.canonical) :
    (m.and o).or (m.andnot v) = if m.signBit = 1 then o else v := by
  rcases hm with rfl | rfl
  · rw [Word32.zero_and, Word32.andnot_zero, Word32.zero_or]
    have : Word32.zero.signBit = 0 := by decide
    simp [this]
  · rw [Word32.allOnes_and, Word32.andnot_allOnes, Word32.or_zero]
    have : Word32.allOnes.signBit = 1 := by decide
    simp [this]

theorem vfloat_assign_lane (exec : exec_t) (v other : vfloat) (hexec : exec._mask.canonical)
    (i : Fin 4) :
    (vfloat.assign exec v other)._value.lane i =
      if exec.active i then other._value.lane i else v._value.lane i := by
  obtain ⟨h0, h1, h2, h3⟩ := hexec
  unfold exec_t.active
  fin_cases i
  · exact Word32.blend _ _ _ h0
  · exact Word32.blend _ _ _ h1
  · exact Word32.blend _ _ _ h2
  · exact Word32.blend _ _ _ h3

theorem m128.ext_lane (a b : m128) (h : ∀ i : Fin 4, a.lane i = b.lane i) : a = b := by
  have h0 := h 0
  have h1 := h 1
  have h2 := h 2
  have h3 := h 3
  simp only [m128.lane] at h0 h1 h2 h3
  cases a
  cases b
  simp_all

/-- C4. Masked assignment. For each canonical current mask (each lane all
zeros or all ones, 16 patterns), every destination `v`, every source `other`
and every lane `i`, after `v = other` the destination holds the bit pattern
`other[i]` if lane `i` is active and the old bit pattern `v[i]` otherwise;
under the fully inactive mask the destination is unchanged, and under the
fully active mask it equals the source. -/
theorem vfloat_assign_masked (exec : exec_t) (v other : vfloat)
    (hexec : exec._mask.canonical) :
    (∀ i : Fin 4, (vfloat.assign exec v other)._value.lane i =
        if exec.active i then other._value.lane i else v._value.lane i)
      ∧ ((∀ i : Fin 4, ¬ exec.active i) → vfloat.assign exec v other = v)
      ∧ ((∀ i : Fin 4, exec.active i) → vfloat.assign exec v other = other) := by
  refine ⟨vfloat_assign_lane exec v other hexec, fun hoff => ?_, fun hon => ?_⟩
  · have : (vfloat.assign exec v other)._value = v._value := by
      apply m128.ext_lane
      intro i
      rw [vfloat_assign_lane exec v other hexec i, if_neg (hoff i)]
    cases v
    cases hv : vfloat.assign exec ⟨_⟩ other
    simp_all
  · have : (vfloat.assign exec v other)._value = other._value := by
      apply m128.ext_lane
      intro i
      rw [vfloat_assign_lane exec v other hexec i, if_pos (hon i)]
    cases other
    cases hv : vfloat.assign exec v ⟨_⟩
    simp_all

/-- C4, witness: under the mask with lanes 0 and 2 active, assigning
`[5,6,7,8]` to `[1,2,3,4]` gives `[5,2,7,4]`. -/
theorem vfloat_assign_masked_witness :
    (m128.ofBools true false true false).canonical
      ∧ vfloat.assign ⟨m128.ofBools true false true false⟩ ⟨m128.ofNats 1 2 3 4⟩
          ⟨m128.ofNats 5 6 7 8⟩ = ⟨m128.ofNats 5 2 7 4⟩
      ∧ ∀ i : Fin 4, (vfloat.assign ⟨m128.ofBools true false true false⟩ ⟨m128.ofNats 1 2 3 4⟩
          ⟨m128.ofNats 5 6 7 8⟩)._value.lane i =
        if (⟨m128.ofBools true false true false⟩ : exec_t).active i
          then (m128.ofNats 5 6 7 8).lane i else (m128.ofNats 1 2 3 4).lane i :=
  ⟨by decide, by decide,
   (vfloat_assign_masked ⟨m128.ofBools true false true false⟩ ⟨m128.ofNats 1 2 3 4⟩
      ⟨m128.ofNats 5 6 7 8⟩ (by decide)).1⟩

/-! ## `spmd_foreach`: the sequence of invocations -/

theorem Word32.ofInt_add (a b : Int) :
    (Word32.ofInt a).add (Word32.ofInt b) = Word32.ofInt (a + b) := by
  apply Fin.ext
  simp only [Word32.add, Word32.ofInt]
  omega

theorem Word32.toInt_ofInt (x : Int) (h : isInt32 x) : (Word32.ofInt x).toInt = x := by
  obtain ⟨h1, h2⟩ := h
  simp only [Word32.toInt, Word32.ofInt]
  split <;> omega

theorem wrap32_eq (x : Int) (h : isInt32 x) : wrap32 x = x :=
  Word32.toInt_ofInt x h

theorem Word32.cmplt_ofInt (a b : Int) (ha : isInt32 a) (hb : isInt32 b) :
    (Word32.ofInt a).cmplt_i (Word32.ofInt b) =
      if a < b then Word32.allOnes else Word32.zero := by
  unfold Word32.cmplt_i
  rw [Word32.toInt_ofInt a ha, Word32.toInt_ofInt b hb]

theorem laneIndices_step (base : Int) :
    _mm_add_epi32 (laneIndices base)._value (_mm_set1_epi32 programCount) =
      (laneIndices (base + 4))._value := by
  simp only [_mm_add_epi32, _mm_set1_epi32, laneIndices, m128.map2, programCount,
    Word32.ofInt_add]
  have e1 : base + 1 + 4 = base + 4 + 1 := by ring
  have e2 : base + 2 + 4 = base + 4 + 2 := by ring
  have e3 : base + 3 + 4 = base + 4 + 3 := by ring
  rw [e1, e2, e3]

theorem laneIndices_first (first : Int) :
    _mm_add_epi32 programIndex._value (_mm_set1_epi32 first) = (laneIndices first)._value := by
  simp only [_mm_add_epi32, _mm_set1_epi32, _mm_set_epi32, programIndex, laneIndices, m128.map2,
    Word32.ofInt_add]
  have e0 : (0 : Int) + first = first := by ring
  have e1 : (1 : Int) + first = first + 1 := by ring
  have e2 : (2 : Int) + first = first + 2 := by ring
  have e3 : (3 : Int) + first = first + 3 := by ring
  rw [e0, e1, e2, e3]

theorem partialMask_eq (p : Int) (hp : isInt32 p) :
    (⟨_mm_castsi128_ps (_mm_cmplt_epi32 programIndex._value (_mm_set1_epi32 p))⟩ : exec_t) =
      firstLanes p := by
  simp only [_mm_castsi128_ps, _mm_cmplt_epi32, _mm_set1_epi32, _mm_set_epi32, programIndex,
    m128.map2, firstLanes, m128.ofBools]
  rw [Word32.cmplt_ofInt 0 p (by decide) hp, Word32.cmplt_ofInt 1 p (by decide) hp,
    Word32.cmplt_ofInt 2 p (by decide) hp, Word32.cmplt_ofInt 3 p (by decide) hp]
  simp

theorem observedIdx_keepsMask {σ : Type} (b : ForeachBody σ) (hb : b.keepsMask) (idx : lint)
    (s : SpmdState (σ × List (lint × exec_t))) :
    ∃ u, observedIdx b idx s = Outcome.returned ⟨s.exec, (u, s.user.2 ++ [(idx, s.exec)])⟩ :=
  probe_keepsMask (fun m => (idx, m)) (b idx) (hb idx) s

theorem foreachPartial_trace {σ : Type} (b : ForeachBody σ) (hb : b.keepsMask) (p : Int)
    (hp : isInt32 p) (loopIndex : m128i) (M0 : exec_t) (u : σ) (log : List (lint × exec_t)) :
    ∃ u', foreachPartial p (observedIdx b) loopIndex ⟨M0, (u, log)⟩ =
      Outcome.returned ⟨M0, (u', log ++
        (if 0 < p then [(⟨loopIndex⟩, M0.and (firstLanes p))] else []))⟩ := by
  unfold foreachPartial
  by_cases h : p > 0
  · have h' : 0 < p := h
    simp only [h, h', if_true, partialMask_eq p hp]
    obtain ⟨w, hw⟩ := observedIdx_keepsMask b hb ⟨loopIndex⟩ ⟨M0.and (firstLanes p), (u, log)⟩
    rw [hw]
    exact ⟨w, rfl⟩
  · have h' : ¬ 0 < p := h
    simp only [h, h', if_false]
    exact ⟨u, by simp⟩

theorem foreachLoop_trace {σ : Type} (b : ForeachBody σ) (hb : b.keepsMask) (first p N : Int)
    (hN : N < 2147483648) (M0 : exec_t) :
    ∀ (n fuel : Nat) (i : Int) (u : σ) (log : List (lint × exec_t)),
      n ≤ fuel → 0 ≤ i → i + 4 * (n : Int) = N →
      ∃ u', foreachLoop N p (observedIdx b) fuel i (laneIndices (first + i))._value
          ⟨M0, (u, log)⟩ =
        foreachPartial p (observedIdx b) (laneIndices (first + N))._value
          ⟨M0, (u', log ++ (List.range n).map fun (k : Nat) => (laneIndices (first + i + 4 * (k : Int)), M0))⟩ := by
  intro n
  induction n with
  | zero =>
    intro fuel i u log _ _ hi
    have hiN : i = N := by omega
    subst hiN
    refine ⟨u, ?_⟩
    cases fuel <;> simp [foreachLoop]
  | succ n ih =>
    intro fuel i u log hfuel hi0 hi
    obtain ⟨fuel', rfl⟩ : ∃ f, fuel = f + 1 := ⟨fuel - 1, by omega⟩
    have hlt : i < N := by omega
    obtain ⟨w, hw⟩ := observedIdx_keepsMask b hb (laneIndices (first + i)) ⟨M0, (u, log)⟩
    have hwrap : wrap32 (i + programCount) = i + 4 := by
      apply wrap32_eq
      unfold isInt32 programCount
      constructor <;> omega
    obtain ⟨u', hu'⟩ := ih fuel' (i + 4) w (log ++ [(laneIndices (first + i), M0)])
      (by omega) (by omega) (by push_cast at hi ⊢; omega)
    refine ⟨u', ?_⟩
    have hidx : first + (i + 4) = first + i + 4 := by ring
    rw [hidx] at hu'
    simp only [foreachLoop, hlt, if_true, hw, Outcome.bind_returned, hwrap, laneIndices_step, hu']
    congr 3
    rw [List.range_succ_eq_map, List.map_cons, List.map_map, List.append_assoc]
    congr 2
    simp only [Function.comp_apply, Nat.succ_eq_add_one, Nat.cast_zero, mul_zero, add_zero,
      List.cons.injEq, true_and, List.map_inj_left, Prod.mk.injEq, and_true, Nat.cast_add,
      Nat.cast_one]
    rw [List.singleton_append]
    congr 1
    apply List.map_congr_left
    intro k _
    simp only [Function.comp_apply, Nat.succ_eq_add_one, Nat.cast_add, Nat.cast_one]
    congr 2
    ring

theorem spmd_foreach_trace {σ : Type} (b : ForeachBody σ) (hb : b.keepsMask) (first last : Int)
    (hfirst : isInt32 first) (hlast : isInt32 last) (hle : first ≤ last)
    (hlen : last - first < 2147483648) (M0 : exec_t) (u : σ) :
    ∃ u', spmd_foreach first last (observedIdx b) ⟨M0, (u, [])⟩ =
      Outcome.returned ⟨M0, (u',
        ((List.range ((last - first) / 4).toNat).map fun (k : Nat) =>
          (laneIndices (first + 4 * (k : Int)), M0)) ++
        (if 0 < (last - first) % 4
          then [(laneIndices (first + 4 * ((last - first) / 4)),
                  M0.and (firstLanes ((last - first) % 4)))]
          else []))⟩ := by
  obtain ⟨hf1, hf2⟩ := hfirst
  obtain ⟨hl1, hl2⟩ := hlast
  have hd : wrap32 (last - first) = last - first :=
    wrap32_eq _ ⟨by omega, hlen⟩
  have hdiv : Int.tdiv (last - first) programCount = (last - first) / 4 :=
    Int.tdiv_eq_ediv (by omega) (by decide)
  have hmod : Int.tmod (last - first) programCount = (last - first) % 4 :=
    Int.tmod_eq_emod (by omega) (by decide)
  have hN : wrap32 ((last - first) / 4 * programCount) = 4 * ((last - first) / 4) := by
    have e : (last - first) / 4 * programCount = 4 * ((last - first) / 4) := by
      unfold programCount; ring
    rw [e]
    exact wrap32_eq _ ⟨by omega, by omega⟩
  unfold spmd_foreach
  simp only [hle, not_true_eq_false, if_false, hd, hdiv, hmod, hN, laneIndices_first]
  obtain ⟨w, hw⟩ := foreachLoop_trace b hb first ((last - first) % 4) (4 * ((last - first) / 4))
    (by omega) M0 ((last - first) / 4).toNat (4 * ((last - first) / 4)).toNat 0 u []
    (by omega) (le_refl 0) (by omega)
  simp only [add_zero, List.nil_append] at hw
  rw [hw]
  obtain ⟨w', hw'⟩ := foreachPartial_trace b hb ((last - first) % 4) ⟨by omega, by omega⟩
    (laneIndices (first + 4 * ((last - first) / 4)))._value M0 w
    ((List.range ((last - first) / 4).toNat).map fun (k : Nat) =>
      (laneIndices (first + 4 * (k : Int)), M0))
  exact ⟨w', hw'⟩

theorem laneIndices_toInt (base : Int) (i : Fin 4) (h : isInt32 (base + (i.val : Int))) :
    ((laneIndices base)._value.lane i).toInt = base + (i.val : Int) := by
  fin_cases i
  · simpa [laneIndices, m128.lane] using Word32.toInt_ofInt base (by simpa using h)
  · exact Word32.toInt_ofInt (base + 1) h
  · exact Word32.toInt_ofInt (base + 2) h
  · exact Word32.toInt_ofInt (base + 3) h

theorem Word32.signBit_and_ite (m : Word32) (c : Bool) :
    (m.and (if c then Word32.allOnes else Word32.zero)).signBit = 1 ↔ (m.signBit = 1 ∧ c = true) := by
  cases c
  · have : Word32.zero.signBit = 0 := by decide
    simp [Word32.and_zero, this]
  · simp [Word32.and_allOnes]

theorem active_and_firstLanes (M0 : exec_t) (p : Int) (i : Fin 4) :
    (M0.and (firstLanes p)).active i ↔ (M0.active i ∧ (i.val : Int) < p) := by
  unfold exec_t.active
  fin_cases i
  · simpa [m128.lane, firstLanes, exec_t.and, _mm_and_ps, m128.map2, m128.ofBools] using
      Word32.signBit_and_ite M0._mask.e0 (decide (0 < p))
  · simpa [m128.lane, firstLanes, exec_t.and, _mm_and_ps, m128.map2, m128.ofBools] using
      Word32.signBit_and_ite M0._mask.e1 (decide (1 < p))
  · simpa [m128.lane, firstLanes, exec_t.and, _mm_and_ps, m128.map2, m128.ofBools] using
      Word32.signBit_and_ite M0._mask.e2 (decide (2 < p))
  · simpa [m128.lane, firstLanes, exec_t.and, _mm_and_ps, m128.map2, m128.ofBools] using
      Word32.signBit_and_ite M0._mask.e3 (decide (3 < p))

/-! ## C6: the invocations of `spmd_foreach` -/

/-- C6 (as amended). For every pair of `int` values `first <= last` whose
difference `last - first` is itself representable as an `int`, every ambient
mask `M0` and every loop body that returns with the mask as it found it,
`spmd_foreach` returns with the mask `M0`, having made `(last-first)/4` full
invocations, the `k`-th with the index vector whose lane `i` encodes
`first + 4k + i` and under the mask `M0`, followed, when
`p = (last-first) mod 4` is positive, by exactly one more invocation with the
index vector continuing the sequence under the mask `M0 AND (i < p)`. The
lanes of the full invocations and the first `p` lanes of the last one read back
as exactly those integers, and lane `i` is active in the last mask exactly when
it is active in `M0` and `i < p`. -/
theorem spmd_foreach_invocations {σ : Type} (b : ForeachBody σ) (first last : Int)
    (M0 : exec_t) (u : σ) (hb : b.keepsMask)
    (hfirst : isInt32 first) (hlast : isInt32 last) (hle : first ≤ last)
    (hlen : last - first < 2147483648) :
    (∃ u', spmd_foreach first last (observedIdx b) ⟨M0, (u, [])⟩ =
      Outcome.returned ⟨M0, (u',
        ((List.range ((last - first) / 4).toNat).map fun (k : Nat) =>
          (laneIndices (first + 4 * (k : Int)), M0)) ++
        (if 0 < (last - first) % 4
          then [(laneIndices (first + 4 * ((last - first) / 4)),
                  M0.and (firstLanes ((last - first) % 4)))]
          else []))⟩)
      ∧ (∀ (k : Nat) (i : Fin 4), (k : Int) < (last - first) / 4 →
          ((laneIndices (first + 4 * (k : Int)))._value.lane i).toInt =
            first + 4 * (k : Int) + (i.val : Int))
      ∧ (∀ i : Fin 4, (i.val : Int) < (last - first) % 4 →
          ((laneIndices (first + 4 * ((last - first) / 4)))._value.lane i).toInt =
            first + 4 * ((last - first) / 4) + (i.val : Int))
      ∧ (∀ i : Fin 4, (M0.and (firstLanes ((last - first) % 4))).active i ↔
          (M0.active i ∧ (i.val : Int) < (last - first) % 4)) := by
  obtain ⟨hf1, hf2⟩ := hfirst
  obtain ⟨hl1, hl2⟩ := hlast
  refine ⟨spmd_foreach_trace b hb first last ⟨hf1, hf2⟩ ⟨hl1, hl2⟩ hle hlen M0 u, ?_, ?_,
    fun i => active_and_firstLanes M0 _ i⟩
  · intro k i hk
    have hi := i.isLt
    exact laneIndices_toInt _ i ⟨by omega, by omega⟩
  · intro i hi'
    have hi := i.isLt
    exact laneIndices_toInt _ i ⟨by omega, by omega⟩

/-- C6, witness: the range `[0,10)` under the initial mask gives bases 0 and 4
with every lane active and base 8 with only lanes 0 and 1 active. -/
theorem spmd_foreach_invocations_witness :
    (∃ u', spmd_foreach 0 10 (observedIdx (skipLoopBody : ForeachBody Unit))
        ⟨exec_init, ((), [])⟩ =
      Outcome.returned ⟨exec_init, (u',
        [(laneIndices 0, ⟨m128.ofBools true true true true⟩),
         (laneIndices 4, ⟨m128.ofBools true true true true⟩),
         (laneIndices 8, ⟨m128.ofBools true true false false⟩)])⟩) :=
  (spmd_foreach_invocations (skipLoopBody : ForeachBody Unit) 0 10 exec_init ()
    (fun _ s => ⟨s.user, rfl⟩) (by decide) (by decide) (by decide) (by decide)).1

/-- C6, counterexample to the claim as stated (every `first <= last`). For
`first = -2147483648` and `last = 2147483647` the claim asks for
`floor((last-first)/4) = 1073741823` full invocations and one partial one; the
`int` difference `last - first` wraps to `-1` and the body is never invoked. -/
theorem spmd_foreach_invocations_counterexample :
    isInt32 (-2147483648) ∧ isInt32 2147483647 ∧ (-2147483648 : Int) ≤ 2147483647
      ∧ ((2147483647 : Int) - (-2147483648)) / 4 = 1073741823
      ∧ wrap32 (2147483647 - (-2147483648)) = -1
      ∧ (spmd_foreach (-2147483648) 2147483647 (observedIdx (skipLoopBody : ForeachBody Unit))
          ⟨exec_init, ((), [])⟩).log = [] := by
  decide

/-! ## C5: loop coverage -/

theorem laneIndices_lanes (base : Int) :
    (isInt32 base → ((laneIndices base)._value.lane 0).toInt = base)
      ∧ (isInt32 (base + 1) → ((laneIndices base)._value.lane 1).toInt = base + 1)
      ∧ (isInt32 (base + 2) → ((laneIndices base)._value.lane 2).toInt = base + 2)
      ∧ (isInt32 (base + 3) → ((laneIndices base)._value.lane 3).toInt = base + 3) :=
  ⟨fun h => Word32.toInt_ofInt base h, fun h => Word32.toInt_ofInt (base + 1) h,
   fun h => Word32.toInt_ofInt (base + 2) h, fun h => Word32.toInt_ofInt (base + 3) h⟩

theorem activeValues_full (base : Int) (M0 : exec_t) (hM0 : ∀ i : Fin 4, M0.active i)
    (h0 : isInt32 base) (h3 : isInt32 (base + 3)) :
    activeValues (laneIndices base, M0) = [base, base + 1, base + 2, base + 3] := by
  obtain ⟨a0, a1⟩ := h0
  obtain ⟨b0, b1⟩ := h3
  obtain ⟨l0, l1, l2, l3⟩ := laneIndices_lanes base
  have l0 := l0 ⟨by omega, by omega⟩
  have l1 := l1 ⟨by omega, by omega⟩
  have l2 := l2 ⟨by omega, by omega⟩
  have l3 := l3 ⟨by omega, by omega⟩
  simp only [activeValues, List.filter, hM0, decide_True, List.map, l0, l1, l2, l3]

theorem activeValues_lastLanes (base p : Int) (M0 : exec_t) (hM0 : ∀ i : Fin 4, M0.active i)
    (hp0 : 0 < p) (hp4 : p < 4) (h0 : isInt32 base) (h3 : isInt32 (base + p - 1)) :
    activeValues (laneIndices base, M0.and (firstLanes p)) =
      (List.range p.toNat).map fun (j : Nat) => base + (j : Int) := by
  obtain ⟨a0, a1⟩ := h0
  obtain ⟨b0, b1⟩ := h3
  have act : ∀ i : Fin 4, decide ((M0.and (firstLanes p)).active i) = decide ((i.val : Int) < p) := by
    intro i
    simp only [active_and_firstLanes, hM0, true_and]
  obtain ⟨l0, l1, l2, l3⟩ := laneIndices_lanes base
  have hp : p = 1 ∨ p = 2 ∨ p = 3 := by omega
  rcases hp with rfl | rfl | rfl
  · have l0 := l0 ⟨by omega, by omega⟩
    simp only [activeValues, List.filter, act, List.map, l0]
    simp [List.range_succ]
  · have l0 := l0 ⟨by omega, by omega⟩
    have l1 := l1 ⟨by omega, by omega⟩
    simp only [activeValues, List.filter, act, List.map, l0, l1]
    simp [List.range_succ]
  · have l0 := l0 ⟨by omega, by omega⟩
    have l1 := l1 ⟨by omega, by omega⟩
    have l2 := l2 ⟨by omega, by omega⟩
    simp only [activeValues, List.filter, act, List.map, l0, l1, l2]
    simp [List.range_succ]

theorem chunk_flatten {α : Type} (f : Nat → α) (q : Nat) :
    ((List.range q).map fun k => [f (4 * k), f (4 * k + 1), f (4 * k + 2), f (4 * k + 3)]).flatten =
      (List.range (4 * q)).map f := by
  induction q with
  | zero => rfl
  | succ q ih =>
    have e : 4 * (q + 1) = 4 * q + 1 + 1 + 1 + 1 := by ring
    rw [List.range_succ, List.map_append, List.flatten_append, ih, e]
    simp [List.range_succ]

/-- C5 (as amended). Loop coverage. For every pair of `int` values
`first <= last` whose difference `last - first` is itself representable as an
`int`, and every loop body that returns with the mask as it found it, when
`spmd_foreach(first, last, body)` is called with all lanes active it returns,
and the lane-index values passed to the body, taken over all invocations in
order and restricted to the lanes active at the time of each invocation, are
`first, first+1, ..., last-1`, each exactly once (none when `first = last`),
whether or not `last - first` is a multiple of 4. -/
theorem spmd_foreach_coverage {σ : Type} (b : ForeachBody σ) (first last : Int)
    (M0 : exec_t) (u : σ) (hb : b.keepsMask)
    (hfirst : isInt32 first) (hlast : isInt32 last) (hle : first ≤ last)
    (hlen : last - first < 2147483648) (hM0 : ∀ i : Fin 4, M0.active i) :
    ∃ u' log, spmd_foreach first last (observedIdx b) ⟨M0, (u, [])⟩ =
        Outcome.returned ⟨M0, (u', log)⟩
      ∧ (log.map activeValues).flatten =
          (List.range (last - first).toNat).map fun (j : Nat) => first + (j : Int) := by
  obtain ⟨u', hu'⟩ := spmd_foreach_trace b hb first last hfirst hlast hle hlen M0 u
  obtain ⟨hf1, hf2⟩ := hfirst
  obtain ⟨hl1, hl2⟩ := hlast
  refine ⟨u', _, hu', ?_⟩
  have hsplit : (last - first).toNat =
      4 * ((last - first) / 4).toNat + ((last - first) % 4).toNat := by omega
  rw [List.map_append, List.flatten_append, hsplit, List.range_add, List.map_append,
    List.map_map]
  congr 1
  · rw [← chunk_flatten (fun (j : Nat) => first + (j : Int))]
    congr 1
    apply List.map_congr_left
    intro k hk
    have hk' : k < ((last - first) / 4).toNat := List.mem_range.mp hk
    simp only [Function.comp_apply]
    rw [activeValues_full (first + 4 * (k : Int)) M0 hM0 ⟨by omega, by omega⟩
      ⟨by omega, by omega⟩]
    simp only [List.cons.injEq, and_true]
    refine ⟨?_, ?_, ?_, ?_⟩ <;> push_cast <;> ring
  · by_cases hp : 0 < (last - first) % 4
    · rw [if_pos hp]
      simp only [List.map_cons, List.map_nil, List.flatten_cons, List.flatten_nil,
        List.append_nil]
      rw [activeValues_lastLanes (first + 4 * ((last - first) / 4)) ((last - first) % 4) M0 hM0 hp
        (by omega) ⟨by omega, by omega⟩ ⟨by omega, by omega⟩, List.map_map]
      apply List.map_congr_left
      intro j _
      simp only [Function.comp_apply]
      have hq : ((4 * ((last - first) / 4).toNat : Nat) : Int) = 4 * ((last - first) / 4) := by
        omega
      push_cast at hq ⊢
      rw [hq]
      ring
    · rw [if_neg hp]
      have hz : ((last - first) % 4).toNat = 0 := by omega
      rw [hz]
      rfl

/-- C5, witness: the range `[-7, 3)` under the initial mask is covered in
order, the last invocation contributing only its first two lanes. -/
theorem spmd_foreach_coverage_witness :
    (∃ u' log, spmd_foreach (-7) 3 (observedIdx (skipLoopBody : ForeachBody Unit))
          ⟨exec_init, ((), [])⟩ = Outcome.returned ⟨exec_init, (u', log)⟩
        ∧ (log.map activeValues).flatten = [-7, -6, -5, -4, -3, -2, -1, 0, 1, 2])
      ∧ (spmd_foreach (-7) 3 (observedIdx (skipLoopBody : ForeachBody Unit))
          ⟨exec_init, ((), [])⟩).log.map activeValues = [[-7, -6, -5, -4], [-3, -2, -1, 0], [1, 2]] :=
  ⟨spmd_foreach_coverage (skipLoopBody : ForeachBody Unit) (-7) 3 exec_init ()
      (fun _ s => ⟨s.user, rfl⟩) (by decide) (by decide) (by decide) (by decide) (by decide),
   by decide⟩

/-- C5, counterexample to the claim as stated (every pair of 32-bit signed
integers `first <= last`). For `first = -2147483648` and `last = 0` the claim
asks for each of the 2147483648 values `first, ..., -1` once; the `int`
difference `last - first` wraps to `-2147483648`, the loop bound and the
remainder are not positive and the body is never invoked. -/
theorem spmd_foreach_coverage_counterexample :
    isInt32 (-2147483648) ∧ isInt32 0 ∧ (-2147483648 : Int) ≤ 0
      ∧ (∀ i : Fin 4, exec_init.active i)
      ∧ wrap32 (0 - (-2147483648)) = -2147483648
      ∧ (spmd_foreach (-2147483648) 0 (observedIdx (skipLoopBody : ForeachBody Unit))
          ⟨exec_init, ((), [])⟩).log = [] := by
  decide

/-! ## Masked memory references -/

theorem movemask_bit (m : exec_t) (i : Fin 4) :
    (_mm_movemask_ps m._mask &&& (1 <<< i.val) ≠ 0) ↔ m.active i := by
  unfold _mm_movemask_ps exec_t.active
  rcases Word32.signBit_cases m._mask.e0 with a0 | a0 <;>
  rcases Word32.signBit_cases m._mask.e1 with a1 | a1 <;>
  rcases Word32.signBit_cases m._mask.e2 with a2 | a2 <;>
  rcases Word32.signBit_cases m._mask.e3 with a3 | a3 <;>
  fin_cases i <;>
  simp only [m128.lane, a0, a1, a2, a3] <;>
  decide

theorem movemask_full (m : exec_t) :
    _mm_movemask_ps m._mask = 15 ↔ ∀ i : Fin 4, m.active i := by
  unfold _mm_movemask_ps exec_t.active
  constructor
  · intro h i
    rcases Word32.signBit_cases m._mask.e0 with a0 | a0 <;>
    rcases Word32.signBit_cases m._mask.e1 with a1 | a1 <;>
    rcases Word32.signBit_cases m._mask.e2 with a2 | a2 <;>
    rcases Word32.signBit_cases m._mask.e3 with a3 | a3 <;>
    simp only [a0, a1, a2, a3] at h <;>
    first
      | omega
      | (fin_cases i <;> simp only [m128.lane, a0, a1, a2, a3])
  · intro h
    have h0 := h 0
    have h1 := h 1
    have h2 := h 2
    have h3 := h 3
    simp only [m128.lane] at h0 h1 h2 h3
    omega

theorem assign_slow_path (exec : exec_t) (mem : Mem) (r : vfloat_ref) (value : vfloat)
    (h : _mm_movemask_ps exec._mask ≠ 15) (a : Int) :
    r.assign exec mem value a =
      if a = r._value + 3 ∧ exec.active 3 then value._value.e3
      else if a = r._value + 2 ∧ exec.active 2 then value._value.e2
      else if a = r._value + 1 ∧ exec.active 1 then value._value.e1
      else if a = r._value ∧ exec.active 0 then value._value.e0
      else mem a := by
  have v0 : (0 : Fin 4).val = 0 := rfl
  have v1 : (1 : Fin 4).val = 1 := rfl
  have v2 : (2 : Fin 4).val = 2 := rfl
  have v3 : (3 : Fin 4).val = 3 := rfl
  have b0 := movemask_bit exec 0
  have b1 := movemask_bit exec 1
  have b2 := movemask_bit exec 2
  have b3 := movemask_bit exec 3
  rw [v0] at b0
  rw [v1] at b1
  rw [v2] at b2
  rw [v3] at b3
  unfold vfloat_ref.assign
  simp only [h, if_false, List.foldl, v0, v1, v2, v3, b0, b1, b2, b3, m128.lane, Nat.cast_zero,
    Nat.cast_one, Nat.cast_ofNat, add_zero]
  by_cases c0 : exec.active 0 <;> by_cases c1 : exec.active 1 <;>
  by_cases c2 : exec.active 2 <;> by_cases c3 : exec.active 3 <;>
  simp [c0, c1, c2, c3, Mem.write]

theorem assign_fast_path (exec : exec_t) (mem : Mem) (r : vfloat_ref) (value : vfloat)
    (h : _mm_movemask_ps exec._mask = 15) (a : Int) :
    r.assign exec mem value a =
      if a = r._value then value._value.e0
      else if a = r._value + 1 then value._value.e1
      else if a = r._value + 2 then value._value.e2
      else if a = r._value + 3 then value._value.e3
      else mem a := by
  unfold vfloat_ref.assign
  simp only [h, if_true, _mm_store_ps]

theorem load_slow_path (exec : exec_t) (mem : Mem) (r : vfloat_ref) (loaded0 : m128)
    (h : _mm_movemask_ps exec._mask ≠ 15) :
    r.load exec mem loaded0 =
      ⟨⟨if exec.active 0 then mem r._value else loaded0.e0,
        if exec.active 1 then mem (r._value + 1) else loaded0.e1,
        if exec.active 2 then mem (r._value + 2) else loaded0.e2,
        if exec.active 3 then mem (r._value + 3) else loaded0.e3⟩⟩ := by
  have v0 : (0 : Fin 4).val = 0 := rfl
  have v1 : (1 : Fin 4).val = 1 := rfl
  have v2 : (2 : Fin 4).val = 2 := rfl
  have v3 : (3 : Fin 4).val = 3 := rfl
  have b0 := movemask_bit exec 0
  have b1 := movemask_bit exec 1
  have b2 := movemask_bit exec 2
  have b3 := movemask_bit exec 3
  rw [v0] at b0
  rw [v1] at b1
  rw [v2] at b2
  rw [v3] at b3
  unfold vfloat_ref.load
  simp only [h, if_false, List.foldl, v0, v1, v2, v3, b0, b1, b2, b3, m128.setLane,
    Nat.cast_zero, Nat.cast_one, Nat.cast_ofNat, add_zero]
  by_cases c0 : exec.active 0 <;> by_cases c1 : exec.active 1 <;>
  by_cases c2 : exec.active 2 <;> by_cases c3 : exec.active 3 <;>
  simp [c0, c1, c2, c3]

theorem load_lane (exec : exec_t) (mem : Mem) (r : vfloat_ref) (loaded0 : m128) (i : Fin 4)
    (hi : exec.active i) :
    (r.load exec mem loaded0)._value.lane i = mem (r._value + (i.val : Int)) := by
  by_cases h : _mm_movemask_ps exec._mask = 15
  · unfold vfloat_ref.load
    simp only [h, if_true, _mm_load_ps]
    fin_cases i <;> simp [m128.lane]
  · rw [load_slow_path exec mem r loaded0 h]
    fin_cases i <;> simp_all [m128.lane]

theorem assign_lane (exec : exec_t) (mem : Mem) (r : vfloat_ref) (value : vfloat) (i : Fin 4)
    (hi : exec.active i) :
    r.assign exec mem value (r._value + (i.val : Int)) = value._value.lane i := by
  by_cases h : _mm_movemask_ps exec._mask = 15
  · rw [assign_fast_path exec mem r value h]
    fin_cases i <;> simp [m128.lane]
  · rw [assign_slow_path exec mem r value h]
    fin_cases i <;> simp_all [m128.lane]

theorem assign_frame (exec : exec_t) (mem : Mem) (r : vfloat_ref) (value : vfloat) (a : Int)
    (ha : ∀ i : Fin 4, exec.active i → a ≠ r._value + (i.val : Int)) :
    r.assign exec mem value a = mem a := by
  have a0 := ha 0
  have a1 := ha 1
  have a2 := ha 2
  have a3 := ha 3
  simp only [Fin.val_zero, Nat.cast_zero, add_zero] at a0
  have v1 : (1 : Fin 4).val = 1 := rfl
  have v2 : (2 : Fin 4).val = 2 := rfl
  have v3 : (3 : Fin 4).val = 3 := rfl
  rw [v1] at a1
  rw [v2] at a2
  rw [v3] at a3
  simp only [Nat.cast_one, Nat.cast_ofNat] at a1 a2 a3
  by_cases h : _mm_movemask_ps exec._mask = 15
  · have hall := (movemask_full exec).mp h
    rw [assign_fast_path exec mem r value h]
    simp [a0 (hall 0), a1 (hall 1), a2 (hall 2), a3 (hall 3)]
  · rw [assign_slow_path exec mem r value h]
    by_cases c0 : exec.active 0 <;> by_cases c1 : exec.active 1 <;>
    by_cases c2 : exec.active 2 <;> by_cases c3 : exec.active 3 <;>
    simp_all

theorem assign_inactive_lane (exec : exec_t) (mem : Mem) (r : vfloat_ref)
    (value : vfloat) (i : Fin 4) (hi : ¬ exec.active i) :
    r.assign exec mem value (r._value + (i.val : Int)) = mem (r._value + (i.val : Int)) := by
  apply assign_frame
  intro j hj hne
  have hij : i = j := by
    apply Fin.ext
    omega
  exact hi (hij ▸ hj)

/-! ## C7: masked scatter -/

/-- C7 (as amended). Masked scatter. For every current mask, base pointer,
offset vector and value, the target address of lane `i` being
`base + offset[0] + i` (with `offset[0]` the lowest lane read as a signed
`int`): after the scatter through `idx[base]` the memory at the target address
of each active lane `i` holds `value[i]`, and every other memory location, the
target addresses of inactive lanes included, is unchanged; under a mask with
no active lane the memory is entirely unchanged. When the offsets are
consecutive (`offset[i] = offset[0] + i` for every lane) the same holds with
the target address of lane `i` written `base + offset[i]`. -/
theorem vfloat_ref_assign_frame (exec : exec_t) (mem : Mem) (ptr : Int) (idx : lint)
    (value : vfloat) :
    (∀ i : Fin 4, exec.active i →
        (idx.index ptr).assign exec mem value
          (ptr + (idx._value.lane 0).toInt + (i.val : Int)) = value._value.lane i)
      ∧ (∀ a : Int,
          (∀ i : Fin 4, exec.active i → a ≠ ptr + (idx._value.lane 0).toInt + (i.val : Int)) →
          (idx.index ptr).assign exec mem value a = mem a)
      ∧ (∀ i : Fin 4, ¬ exec.active i →
          (idx.index ptr).assign exec mem value
            (ptr + (idx._value.lane 0).toInt + (i.val : Int)) =
            mem (ptr + (idx._value.lane 0).toInt + (i.val : Int)))
      ∧ ((∀ i : Fin 4, ¬ exec.active i) → (idx.index ptr).assign exec mem value = mem)
      ∧ ((∀ i : Fin 4, (idx._value.lane i).toInt = (idx._value.lane 0).toInt + (i.val : Int)) →
          (∀ i : Fin 4, exec.active i →
            (idx.index ptr).assign exec mem value (ptr + (idx._value.lane i).toInt) =
              value._value.lane i)
          ∧ (∀ a : Int, (∀ i : Fin 4, exec.active i → a ≠ ptr + (idx._value.lane i).toInt) →
              (idx.index ptr).assign exec mem value a = mem a)
          ∧ (∀ i : Fin 4, ¬ exec.active i →
              (idx.index ptr).assign exec mem value (ptr + (idx._value.lane i).toInt) =
                mem (ptr + (idx._value.lane i).toInt))) := by
  have hp : (idx.index ptr)._value = ptr + (idx._value.lane 0).toInt := rfl
  have h1 : ∀ i : Fin 4, exec.active i →
      (idx.index ptr).assign exec mem value
        (ptr + (idx._value.lane 0).toInt + (i.val : Int)) = value._value.lane i := by
    intro i hi
    rw [← hp]
    exact assign_lane exec mem _ value i hi
  have h2 : ∀ a : Int,
      (∀ i : Fin 4, exec.active i → a ≠ ptr + (idx._value.lane 0).toInt + (i.val : Int)) →
      (idx.index ptr).assign exec mem value a = mem a := by
    intro a ha
    apply assign_frame
    intro i hi
    rw [hp]
    exact ha i hi
  have h3 : ∀ i : Fin 4, ¬ exec.active i →
      (idx.index ptr).assign exec mem value
        (ptr + (idx._value.lane 0).toInt + (i.val : Int)) =
        mem (ptr + (idx._value.lane 0).toInt + (i.val : Int)) := by
    intro i hi
    rw [← hp]
    exact assign_inactive_lane exec mem _ value i hi
  refine ⟨h1, h2, h3, fun hoff => ?_, fun hcons => ⟨fun i hi => ?_, fun a ha => ?_, fun i hi => ?_⟩⟩
  · funext a
    exact assign_frame exec mem _ value a (fun i hi => absurd hi (hoff i))
  · rw [hcons i, ← add_assoc]
    exact h1 i hi
  · apply h2
    intro i hi
    have := ha i hi
    rw [hcons i, ← add_assoc] at this
    exact this
  · rw [hcons i, ← add_assoc]
    exact h3 i hi

/-- C7, witness: with lanes 1 and 3 active and the consecutive offsets
`8, 9, 10, 11` from base 100, the scatter writes elements 109 and 111 and
leaves elements 108 and 110 alone. -/
theorem vfloat_ref_assign_frame_witness :
    (∀ i : Fin 4, ((laneIndices 8)._value.lane i).toInt =
        ((laneIndices 8)._value.lane 0).toInt + (i.val : Int))
      ∧ (∀ i : Fin 4, (⟨m128.ofBools false true false true⟩ : exec_t).active i →
          ((laneIndices 8).index 100).assign ⟨m128.ofBools false true false true⟩
            (fun _ => Word32.zero) ⟨m128.ofNats 11 22 33 44⟩
            (100 + ((laneIndices 8)._value.lane i).toInt) = (m128.ofNats 11 22 33 44).lane i)
      ∧ ((laneIndices 8).index 100).assign ⟨m128.ofBools false true false true⟩
            (fun _ => Word32.zero) ⟨m128.ofNats 11 22 33 44⟩ 109 = Fin.ofNat 22
      ∧ ((laneIndices 8).index 100).assign ⟨m128.ofBools false true false true⟩
            (fun _ => Word32.zero) ⟨m128.ofNats 11 22 33 44⟩ 108 = Word32.zero
      ∧ ((laneIndices 8).index 100).assign ⟨m128.ofBools false true false true⟩
            (fun _ => Word32.zero) ⟨m128.ofNats 11 22 33 44⟩ 110 = Word32.zero :=
  ⟨by decide,
   ((vfloat_ref_assign_frame ⟨m128.ofBools false true false true⟩ (fun _ => Word32.zero) 100
      (laneIndices 8) ⟨m128.ofNats 11 22 33 44⟩).2.2.2.2 (by decide)).1,
   by decide, by decide, by decide⟩

/-- C7, counterexample to the claim as stated (target address
`base + offset[i]` for every offset vector). With offsets `0, 5, 1, 3` from
base 100 and only lane 1 active, the target address of the active lane 1 is
105 and that of the inactive lane 2 is 101; after the scatter element 105 is
as it was, not `value[1]`, and element 101 has been overwritten with
`value[1]`. -/
theorem vfloat_ref_assign_frame_counterexample :
    (⟨m128.ofBools false true false false⟩ : exec_t).active 1
      ∧ ¬ (⟨m128.ofBools false true false false⟩ : exec_t).active 2
      ∧ ((⟨m128.ofNats 0 5 1 3⟩ : lint)._value.lane 1).toInt = 5
      ∧ ((⟨m128.ofNats 0 5 1 3⟩ : lint)._value.lane 2).toInt = 1
      ∧ ((⟨m128.ofNats 0 5 1 3⟩ : lint).index 100).assign ⟨m128.ofBools false true false false⟩
          (fun _ => Word32.zero) ⟨m128.ofNats 11 22 33 44⟩ (100 + 5) = Word32.zero
      ∧ ((⟨m128.ofNats 0 5 1 3⟩ : lint).index 100).assign ⟨m128.ofBools false true false false⟩
          (fun _ => Word32.zero) ⟨m128.ofNats 11 22 33 44⟩ (100 + 1) = Fin.ofNat 22
      ∧ (m128.ofNats 11 22 33 44).lane 1 = Fin.ofNat 22 := by
  decide

/-! ## C8: the addresses of a masked memory reference -/

/-- C8 (as amended). For every base address `ptr` and every offset vector
`idx`, the reference `idx[ptr]` addresses, for each lane `i`, the location
`ptr + idx[0] + i`, where `idx[0]` is the lowest lane read as a signed `int`:
scatter writes the value of an active lane `i` there and gather reads an active
lane `i` from there. When the offsets are consecutive
(`idx[i] = idx[0] + i` for every lane) that location is `ptr + idx[i]`. -/
theorem lint_index_addresses (exec : exec_t) (mem : Mem) (ptr : Int) (idx : lint)
    (value : vfloat) (loaded0 : m128) :
    (idx.index ptr)._value = ptr + (idx._value.lane 0).toInt
      ∧ (∀ i : Fin 4, exec.active i →
          (idx.index ptr).assign exec mem value (ptr + (idx._value.lane 0).toInt + (i.val : Int)) =
            value._value.lane i)
      ∧ (∀ i : Fin 4, exec.active i →
          ((idx.index ptr).load exec mem loaded0)._value.lane i =
            mem (ptr + (idx._value.lane 0).toInt + (i.val : Int)))
      ∧ ((∀ i : Fin 4, (idx._value.lane i).toInt = (idx._value.lane 0).toInt + (i.val : Int)) →
          (∀ i : Fin 4, exec.active i →
            (idx.index ptr).assign exec mem value (ptr + (idx._value.lane i).toInt) =
              value._value.lane i)
          ∧ (∀ i : Fin 4, exec.active i →
            ((idx.index ptr).load exec mem loaded0)._value.lane i =
              mem (ptr + (idx._value.lane i).toInt))) := by
  have hp : (idx.index ptr)._value = ptr + (idx._value.lane 0).toInt := rfl
  refine ⟨hp, fun i hi => ?_, fun i hi => ?_, fun hcons => ⟨fun i hi => ?_, fun i hi => ?_⟩⟩
  · rw [← hp]
    exact assign_lane exec mem _ value i hi
  · rw [← hp]
    exact load_lane exec mem _ loaded0 i hi
  · rw [hcons i, ← add_assoc, ← hp]
    exact assign_lane exec mem _ value i hi
  · rw [hcons i, ← add_assoc, ← hp]
    exact load_lane exec mem _ loaded0 i hi

/-- C8, witness: the consecutive offsets `8, 9, 10, 11` from base 100 address
elements 108 to 111. -/
theorem lint_index_addresses_witness :
    (∀ i : Fin 4, ((laneIndices 8)._value.lane i).toInt =
        ((laneIndices 8)._value.lane 0).toInt + (i.val : Int))
      ∧ (∀ i : Fin 4, exec_init.active i →
          ((laneIndices 8).index 100).assign exec_init (fun _ => Word32.zero)
            ⟨m128.ofNats 11 22 33 44⟩ (100 + ((laneIndices 8)._value.lane i).toInt) =
              (m128.ofNats 11 22 33 44).lane i)
      ∧ ((laneIndices 8).index 100).assign exec_init (fun _ => Word32.zero)
            ⟨m128.ofNats 11 22 33 44⟩ 109 = Fin.ofNat 22 :=
  ⟨by decide,
   ((lint_index_addresses exec_init (fun _ => Word32.zero) 100 (laneIndices 8)
      ⟨m128.ofNats 11 22 33 44⟩ _mm_setzero_ps).2.2.2 (by decide)).1,
   by decide⟩

/-- C8, counterexample to the claim as stated (every offset vector). With
offsets `0, 5, 2, 3` from base 100 and only lane 1 active, lane 1's offset is
5, yet the scatter leaves element 105 as it was and writes lane 1's value to
element 101, and the gather reads lane 1 from element 101, not from 105. -/
theorem lint_index_addresses_counterexample :
    (⟨m128.ofBools false true false false⟩ : exec_t).active 1
      ∧ ((⟨m128.ofNats 0 5 2 3⟩ : lint)._value.lane 1).toInt = 5
      ∧ ((⟨m128.ofNats 0 5 2 3⟩ : lint).index 100).assign ⟨m128.ofBools false true false false⟩
          (fun _ => Word32.zero) ⟨m128.ofNats 11 22 33 44⟩ (100 + 5) = Word32.zero
      ∧ ((⟨m128.ofNats 0 5 2 3⟩ : lint).index 100).assign ⟨m128.ofBools false true false false⟩
          (fun _ => Word32.zero) ⟨m128.ofNats 11 22 33 44⟩ (100 + 1) = Fin.ofNat 22
      ∧ (((⟨m128.ofNats 0 5 2 3⟩ : lint).index 100).load ⟨m128.ofBools false true false false⟩
          (fun a => if a = 105 then Fin.ofNat 7 else Fin.ofNat 9) _mm_setzero_ps)._value.lane 1 =
            Fin.ofNat 9 := by
  decide

/-! ## C9: scatter then gather -/

/-- C9 (as amended). Gather/scatter round-trip. For every current mask,
memory, base, offset vector and value `v`, scattering `v` through `idx[base]`
and then gathering through the same reference under the same mask returns a
vector equal to `v` on every active lane (whatever the scratch array of the
gather held before), and the memory at the address `base + offset[0] + i` of
every inactive lane `i` is the same as before the scatter. When the offsets
are consecutive (`offset[i] = offset[0] + i` for every lane) that address is
`base + offset[i]`. -/
theorem scatter_gather_round_trip (exec : exec_t) (mem : Mem) (ptr : Int) (idx : lint)
    (v : vfloat) (loaded0 : m128) :
    (∀ i : Fin 4, exec.active i →
        ((idx.index ptr).load exec ((idx.index ptr).assign exec mem v) loaded0)._value.lane i =
          v._value.lane i)
      ∧ (∀ i : Fin 4, ¬ exec.active i →
          (idx.index ptr).assign exec mem v (ptr + (idx._value.lane 0).toInt + (i.val : Int)) =
            mem (ptr + (idx._value.lane 0).toInt + (i.val : Int)))
      ∧ ((∀ i : Fin 4, (idx._value.lane i).toInt = (idx._value.lane 0).toInt + (i.val : Int)) →
          ∀ i : Fin 4, ¬ exec.active i →
            (idx.index ptr).assign exec mem v (ptr + (idx._value.lane i).toInt) =
              mem (ptr + (idx._value.lane i).toInt)) := by
  have hp : (idx.index ptr)._value = ptr + (idx._value.lane 0).toInt := rfl
  have h2 : ∀ i : Fin 4, ¬ exec.active i →
      (idx.index ptr).assign exec mem v (ptr + (idx._value.lane 0).toInt + (i.val : Int)) =
        mem (ptr + (idx._value.lane 0).toInt + (i.val : Int)) := by
    intro i hi
    rw [← hp]
    exact assign_inactive_lane exec mem (idx.index ptr) v i hi
  refine ⟨fun i hi => ?_, h2, fun hcons i hi => ?_⟩
  · rw [load_lane exec _ _ loaded0 i hi]
    exact assign_lane exec mem _ v i hi
  · rw [hcons i, ← add_assoc]
    exact h2 i hi

/-- C9, witness: with lanes 0 and 2 active and the consecutive offsets
`8, 9, 10, 11` from base 100, the round trip returns lanes 0 and 2 of the
value and leaves elements 109 and 111 of memory alone. -/
theorem scatter_gather_round_trip_witness :
    (∀ i : Fin 4, ((laneIndices 8)._value.lane i).toInt =
        ((laneIndices 8)._value.lane 0).toInt + (i.val : Int))
      ∧ (∀ i : Fin 4, ¬ (⟨m128.ofBools true false true false⟩ : exec_t).active i →
          ((laneIndices 8).index 100).assign ⟨m128.ofBools true false true false⟩
            (fun _ => Fin.ofNat 5) ⟨m128.ofNats 11 22 33 44⟩
            (100 + ((laneIndices 8)._value.lane i).toInt) =
              (fun _ => Fin.ofNat 5) (100 + ((laneIndices 8)._value.lane i).toInt))
      ∧ ((laneIndices 8).index 100).load ⟨m128.ofBools true false true false⟩
          (((laneIndices 8).index 100).assign ⟨m128.ofBools true false true false⟩
            (fun _ => Fin.ofNat 5) ⟨m128.ofNats 11 22 33 44⟩) _mm_setzero_ps =
          ⟨m128.ofNats 11 0 33 0⟩
      ∧ ((laneIndices 8).index 100).assign ⟨m128.ofBools true false true false⟩
            (fun _ => Fin.ofNat 5) ⟨m128.ofNats 11 22 33 44⟩ 109 = Fin.ofNat 5 :=
  ⟨by decide,
   (scatter_gather_round_trip ⟨m128.ofBools true false true false⟩ (fun _ => Fin.ofNat 5) 100
      (laneIndices 8) ⟨m128.ofNats 11 22 33 44⟩ _mm_setzero_ps).2.2 (by decide),
   by decide, by decide⟩

/-- C9, counterexample to the claim as stated (every offset vector). With
offsets `3, 9, 4, 0` from base 200 and only lane 1 active, the address of the
inactive lane 2 is `200 + 4`; the scatter writes lane 1 to `200 + 3 + 1`, the
same element, so the memory at an inactive lane's address is not what it was
before the scatter. -/
theorem scatter_gather_round_trip_counterexample :
    ¬ (⟨m128.ofBools false true false false⟩ : exec_t).active 2
      ∧ ((⟨m128.ofNats 3 9 4 0⟩ : lint)._value.lane 2).toInt = 4
      ∧ (fun _ => Word32.zero : Mem) (200 + 4) = Word32.zero
      ∧ ((⟨m128.ofNats 3 9 4 0⟩ : lint).index 200).assign ⟨m128.ofBools false true false false⟩
          (fun _ => Word32.zero) ⟨m128.ofNats 11 22 33 44⟩ (200 + 4) = Fin.ofNat 22 := by
  decide

/-! ## C10: restoring the mask -/

theorem bind_restore_exec {σ : Type} (r : Outcome σ) (e : exec_t) (s' : SpmdState σ)
    (h : (r.bind fun s2 => Outcome.returned { s2 with exec := e }) = Outcome.returned s') :
    s'.exec = e := by
  cases r <;> simp [Outcome.bind] at h
  subst h
  rfl

theorem bind_restore_returns {σ : Type} (r : Outcome σ) (e : exec_t)
    (h : r.isReturned = true) :
    (r.bind fun s2 => Outcome.returned { s2 with exec := e }).isReturned = true := by
  cases r <;> simp_all [Outcome.bind, Outcome.isReturned]

theorem spmd_ifelse_exec {σ : Type} (cond : vbool) (b1 b2 : Body σ) (s s' : SpmdState σ)
    (h : spmd_ifelse cond b1 b2 s = Outcome.returned s') : s'.exec = s.exec := by
  unfold spmd_ifelse at h
  simp only at h
  generalize (if _mm_movemask_ps (s.exec.and ⟨cond._value⟩)._mask ≠ 0
    then b1 { s with exec := s.exec.and ⟨cond._value⟩ }
    else Outcome.returned { s with exec := s.exec.and ⟨cond._value⟩ }) = r1 at h
  cases r1 with
  | returned t => exact bind_restore_exec _ _ s' h
  | thrown t => simp [Outcome.bind] at h
  | aborted t => simp [Outcome.bind] at h
  | unfinished t => simp [Outcome.bind] at h

theorem foreachPartial_exec {σ : Type} (p : Int) (fb : ForeachBody σ) (loopIndex : m128i)
    (s s' : SpmdState σ) (h : foreachPartial p fb loopIndex s = Outcome.returned s') :
    s'.exec = s.exec := by
  unfold foreachPartial at h
  split at h
  · exact bind_restore_exec _ _ s' h
  · simp only [Outcome.returned.injEq] at h
    rw [← h]

theorem spmd_ifelse_returns {σ : Type} (cond : vbool) (b1 b2 : Body σ) (h1 : b1.returns)
    (h2 : b2.returns) (s : SpmdState σ) : (spmd_ifelse cond b1 b2 s).isReturned = true := by
  unfold spmd_ifelse
  simp only
  have hr1 : (if _mm_movemask_ps (s.exec.and ⟨cond._value⟩)._mask ≠ 0
      then b1 { s with exec := s.exec.and ⟨cond._value⟩ }
      else Outcome.returned { s with exec := s.exec.and ⟨cond._value⟩ }).isReturned = true := by
    split
    · exact h1 _
    · rfl
  generalize (if _mm_movemask_ps (s.exec.and ⟨cond._value⟩)._mask ≠ 0
    then b1 { s with exec := s.exec.and ⟨cond._value⟩ }
    else Outcome.returned { s with exec := s.exec.and ⟨cond._value⟩ }) = r1 at hr1 ⊢
  cases r1 with
  | returned t =>
    rw [Outcome.bind_returned]
    apply bind_restore_returns
    split
    · exact h2 _
    · rfl
  | thrown t => simp [Outcome.isReturned] at hr1
  | aborted t => simp [Outcome.isReturned] at hr1
  | unfinished t => simp [Outcome.isReturned] at hr1

/-- C10 (as amended). Each combinator (`spmd_if`, `spmd_ifelse` and the
partial iteration of `spmd_foreach`) restores the current mask to the value
`M0` it had at entry whenever it returns, whether its body ran or was skipped
and whatever the body did to the mask, and it returns whenever its bodies
return. When a body exits abnormally (an exception propagates out of the body
of `spmd_if`, out of the `ifBody` or the `elseBody` of `spmd_ifelse`, or out
of the body in the partial iteration) the combinator does not return: the
exception propagates out of the combinator with the state it carries, and no
restore is performed. -/
theorem combinators_restore_on_return {σ : Type} (cond : vbool) (ifBody elseBody : Body σ)
    (fb : ForeachBody σ) (p : Int) (loopIndex : m128i) (s : SpmdState σ) :
    (∀ s', spmd_if cond ifBody s = Outcome.returned s' → s'.exec = s.exec)
      ∧ (∀ s', spmd_ifelse cond ifBody elseBody s = Outcome.returned s' → s'.exec = s.exec)
      ∧ (∀ s', foreachPartial p fb loopIndex s = Outcome.returned s' → s'.exec = s.exec)
      ∧ (ifBody.returns → elseBody.returns → Body.returns (fb ⟨loopIndex⟩) →
          (spmd_if cond ifBody s).isReturned = true
            ∧ (spmd_ifelse cond ifBody elseBody s).isReturned = true
            ∧ (foreachPartial p fb loopIndex s).isReturned = true)
      ∧ (∀ t, _mm_movemask_ps (s.exec.and ⟨cond._value⟩)._mask ≠ 0 →
          ifBody ⟨s.exec.and ⟨cond._value⟩, s.user⟩ = Outcome.thrown t →
          spmd_if cond ifBody s = Outcome.thrown t
            ∧ spmd_ifelse cond ifBody elseBody s = Outcome.thrown t)
      ∧ (∀ t, 0 < p →
          fb ⟨loopIndex⟩ ⟨s.exec.and
            ⟨_mm_castsi128_ps (_mm_cmplt_epi32 programIndex._value (_mm_set1_epi32 p))⟩,
            s.user⟩ = Outcome.thrown t →
          foreachPartial p fb loopIndex s = Outcome.thrown t)
      ∧ (∀ s2 t,
          (if _mm_movemask_ps (s.exec.and ⟨cond._value⟩)._mask ≠ 0
            then ifBody ⟨s.exec.and ⟨cond._value⟩, s.user⟩
            else Outcome.returned ⟨s.exec.and ⟨cond._value⟩, s.user⟩) = Outcome.returned s2 →
          _mm_movemask_ps (s2.exec.not.and s.exec)._mask ≠ 0 →
          elseBody ⟨s2.exec.not.and s.exec, s2.user⟩ = Outcome.thrown t →
          spmd_ifelse cond ifBody elseBody s = Outcome.thrown t) := by
  refine ⟨fun s' h => spmd_if_exec cond ifBody s s' h,
    fun s' h => spmd_ifelse_exec cond ifBody elseBody s s' h,
    fun s' h => foreachPartial_exec p fb loopIndex s s' h, ?_, ?_, ?_, ?_⟩
  · intro h1 h2 h3
    refine ⟨?_, spmd_ifelse_returns cond ifBody elseBody h1 h2 s, ?_⟩
    · obtain ⟨w, hw⟩ := spmd_if_returns cond ifBody h1 s
      rw [hw]
      rfl
    · unfold foreachPartial
      split
      · exact bind_restore_returns _ _ (h3 _)
      · rfl
  · intro t hm ht
    constructor
    · unfold spmd_if
      simp only [hm, ne_eq, not_false_eq_true, if_true, ht]
      rfl
    · unfold spmd_ifelse
      simp only [hm, ne_eq, not_false_eq_true, if_true, ht]
      rfl
  · intro t hp ht
    have hp' : p > 0 := hp
    unfold foreachPartial
    simp only [hp', if_true, ht]
    rfl
  · intro s2 t h1 hm ht
    unfold spmd_ifelse
    simp only
    rw [h1, Outcome.bind_returned, if_pos hm, ht]
    rfl

/-- C10, witness: with bodies that return, the three combinators return, and
the mask they return with is the initial one. -/
theorem combinators_restore_on_return_witness :
    ((spmd_if ⟨m128.ofBools true false true false⟩ (skipBody : Body Unit)
          ⟨exec_init, ()⟩).isReturned = true
        ∧ (spmd_ifelse ⟨m128.ofBools true false true false⟩ (skipBody : Body Unit) skipBody
          ⟨exec_init, ()⟩).isReturned = true
        ∧ (foreachPartial 2 (skipLoopBody : ForeachBody Unit) (laneIndices 8)._value
          ⟨exec_init, ()⟩).isReturned = true)
      ∧ (spmd_if ⟨m128.ofBools true false true false⟩ (skipBody : Body Unit)
          ⟨exec_init, ()⟩).state.exec = exec_init
      ∧ (spmd_foreach 0 2 (skipLoopBody : ForeachBody Unit) ⟨exec_init, ()⟩).state.exec =
          exec_init :=
  ⟨(combinators_restore_on_return ⟨m128.ofBools true false true false⟩ (skipBody : Body Unit)
      skipBody skipLoopBody 2 (laneIndices 8)._value ⟨exec_init, ()⟩).2.2.2.1
      (fun _ => rfl) (fun _ => rfl) (fun _ => rfl),
   by decide, by decide⟩

/-- C10, counterexample to the claim as stated (every exit path). When the
body raises an exception, each of the three combinators ends with the
exception propagating and the current mask still narrowed: lanes `{0}` for
`spmd_if` and `spmd_ifelse` with a condition true on lane 0 only, lanes
`{0,1}` for the partial iteration of `spmd_foreach(0, 2, body)`, and lanes
`{1,2,3}` for `spmd_ifelse` when it is the `elseBody` that raises; the mask at
entry had all lanes active. -/
theorem combinators_restore_counterexample :
    (spmd_if ⟨m128.ofBools true false false false⟩ (throwingBody : Body Unit)
        ⟨exec_init, ()⟩).isReturned = false
      ∧ (spmd_if ⟨m128.ofBools true false false false⟩ (throwingBody : Body Unit)
        ⟨exec_init, ()⟩).state.exec = ⟨m128.ofBools true false false false⟩
      ∧ (spmd_ifelse ⟨m128.ofBools true false false false⟩ (throwingBody : Body Unit) skipBody
        ⟨exec_init, ()⟩).isReturned = false
      ∧ (spmd_ifelse ⟨m128.ofBools true false false false⟩ (throwingBody : Body Unit) skipBody
        ⟨exec_init, ()⟩).state.exec = ⟨m128.ofBools true false false false⟩
      ∧ (spmd_foreach 0 2 (fun _ => (throwingBody : Body Unit)) ⟨exec_init, ()⟩).isReturned = false
      ∧ (spmd_foreach 0 2 (fun _ => (throwingBody : Body Unit)) ⟨exec_init, ()⟩).state.exec =
          ⟨m128.ofBools true true false false⟩
      ∧ exec_init = ⟨m128.ofBools true true true true⟩
      ∧ (spmd_ifelse ⟨m128.ofBools true false false false⟩ (skipBody : Body Unit) throwingBody
        ⟨exec_init, ()⟩).isReturned = false
      ∧ (spmd_ifelse ⟨m128.ofBools true false false false⟩ (skipBody : Body Unit) throwingBody
        ⟨exec_init, ()⟩).state.exec = ⟨m128.ofBools false true true true⟩ := by
  decide

/-! ## C11: the contract of `spmd_foreach` -/

theorem wrap32_range (x : Int) : isInt32 (wrap32 x) := by
  unfold wrap32 isInt32 Word32.toInt
  have h := (Word32.ofInt x).isLt
  split <;> omega

theorem foreachPartial_returns {σ : Type} (p : Int) (fb : ForeachBody σ)
    (hfb : ∀ idx, Body.returns (fb idx)) (loopIndex : m128i) (s : SpmdState σ) :
    (foreachPartial p fb loopIndex s).isReturned = true := by
  unfold foreachPartial
  split
  · exact bind_restore_returns _ _ (hfb _ _)
  · rfl

theorem foreachLoop_exit {σ : Type} (N p : Int) (fb : ForeachBody σ) (fuel : Nat) (i : Int)
    (loopIndex : m128i) (s : SpmdState σ) (h : ¬ i < N) :
    foreachLoop N p fb fuel i loopIndex s = foreachPartial p fb loopIndex s := by
  cases fuel <;> simp [foreachLoop, h]

theorem foreachLoop_returns {σ : Type} (N p : Int) (fb : ForeachBody σ)
    (hfb : ∀ idx, Body.returns (fb idx)) (hN : N < 2147483648) :
    ∀ (n fuel : Nat) (i : Int) (loopIndex : m128i) (s : SpmdState σ),
      n ≤ fuel → 0 ≤ i → i + 4 * (n : Int) = N →
      (foreachLoop N p fb fuel i loopIndex s).isReturned = true := by
  intro n
  induction n with
  | zero =>
    intro fuel i loopIndex s _ _ hi
    rw [foreachLoop_exit N p fb fuel i loopIndex s (by omega)]
    exact foreachPartial_returns p fb hfb loopIndex s
  | succ n ih =>
    intro fuel i loopIndex s hfuel hi0 hi
    obtain ⟨fuel', rfl⟩ : ∃ f, fuel = f + 1 := ⟨fuel - 1, by omega⟩
    have hlt : i < N := by omega
    have hwrap : wrap32 (i + programCount) = i + 4 := by
      apply wrap32_eq
      unfold isInt32 programCount
      constructor <;> omega
    have hb := hfb ⟨loopIndex⟩ s
    simp only [foreachLoop, hlt, if_true, hwrap]
    cases hr : fb ⟨loopIndex⟩ s with
    | returned t =>
      rw [Outcome.bind_returned]
      exact ih fuel' (i + 4) _ t (by omega) (by omega) (by push_cast at hi ⊢; omega)
    | thrown t => simp [hr, Outcome.isReturned] at hb
    | aborted t => simp [hr, Outcome.isReturned] at hb
    | unfinished t => simp [hr, Outcome.isReturned] at hb

theorem numFullLoops_cases (d : Int) (hd : isInt32 d) :
    (0 ≤ d ∧ wrap32 (Int.tdiv d programCount * programCount) = 4 * (d / 4))
      ∨ (d < 0 ∧ wrap32 (Int.tdiv d programCount * programCount) ≤ 0) := by
  obtain ⟨h1, h2⟩ := hd
  by_cases h : 0 ≤ d
  · left
    refine ⟨h, ?_⟩
    have hdiv : Int.tdiv d programCount = d / 4 := Int.tdiv_eq_ediv h (by decide)
    have e : d / 4 * programCount = 4 * (d / 4) := by unfold programCount; ring
    rw [hdiv, e]
    exact wrap32_eq _ ⟨by omega, by omega⟩
  · right
    refine ⟨by omega, ?_⟩
    have hneg : Int.tdiv d programCount = -((-d) / 4) := by
      have e : d = -(-d) := by ring
      have hq : Int.tdiv (-d) programCount = (-d) / 4 := Int.tdiv_eq_ediv (by omega) (by decide)
      rw [e, Int.neg_tdiv, hq]
      simp
    have e : -((-d) / 4) * programCount = -(4 * ((-d) / 4)) := by unfold programCount; ring
    rw [hneg, e, wrap32_eq _ ⟨by omega, by omega⟩]
    omega

theorem spmd_foreach_returns {σ : Type} (first last : Int) (fb : ForeachBody σ)
    (hfb : ∀ idx, Body.returns (fb idx)) (hle : first ≤ last) (s : SpmdState σ) :
    (spmd_foreach first last fb s).isReturned = true := by
  unfold spmd_foreach
  simp only [hle, not_true_eq_false, if_false]
  rcases numFullLoops_cases (wrap32 (last - first)) (wrap32_range _) with ⟨hd, hN⟩ | ⟨_, hN⟩
  · have hr := wrap32_range (last - first)
    obtain ⟨r1, r2⟩ := hr
    rw [hN]
    exact foreachLoop_returns _ _ fb hfb (by omega) ((wrap32 (last - first)) / 4).toNat _ 0 _ s
      (by omega) (le_refl 0) (by omega)
  · rw [foreachLoop_exit _ _ fb _ 0 _ s (by omega)]
    exact foreachPartial_returns _ fb hfb _ s

theorem bind_not_aborted {σ : Type} (r : Outcome σ) (k : SpmdState σ → Outcome σ)
    (hr : r.isAborted = false) (hk : ∀ t, (k t).isAborted = false) :
    (r.bind k).isAborted = false := by
  cases r with
  | returned t => exact hk t
  | thrown t => rfl
  | aborted t => simp [Outcome.isAborted] at hr
  | unfinished t => rfl

theorem foreachPartial_not_aborted {σ : Type} (p : Int) (fb : ForeachBody σ)
    (hfb : ∀ idx t, (fb idx t).isAborted = false) (loopIndex : m128i) (s : SpmdState σ) :
    (foreachPartial p fb loopIndex s).isAborted = false := by
  unfold foreachPartial
  split
  · exact bind_not_aborted _ _ (hfb _ _) (fun _ => rfl)
  · rfl

theorem foreachLoop_not_aborted {σ : Type} (N p : Int) (fb : ForeachBody σ)
    (hfb : ∀ idx t, (fb idx t).isAborted = false) :
    ∀ (fuel : Nat) (i : Int) (loopIndex : m128i) (s : SpmdState σ),
      (foreachLoop N p fb fuel i loopIndex s).isAborted = false := by
  intro fuel
  induction fuel with
  | zero =>
    intro i loopIndex s
    unfold foreachLoop
    split
    · rfl
    · exact foreachPartial_not_aborted p fb hfb loopIndex s
  | succ fuel ih =>
    intro i loopIndex s
    unfold foreachLoop
    split
    · exact bind_not_aborted _ _ (hfb _ _) (fun t => ih _ _ t)
    · exact foreachPartial_not_aborted p fb hfb loopIndex s

/-- C11. With the `assert` active, `spmd_foreach(first, last, body)` ends in the
abort of the failed assertion exactly when `first > last`. In that case it
stops in the state it was entered in: the body has not been invoked once (the
log of invocations is as it was) and the mask is unchanged. For every
`first <= last` the call does not abort unless an invocation of the body
itself aborts, and it returns whenever the body returns. -/
theorem spmd_foreach_contract {σ : Type} (first last : Int) (fb : ForeachBody σ)
    (M0 : exec_t) (u : σ) (log : List (lint × exec_t)) :
    (last < first →
        spmd_foreach first last (observedIdx fb) ⟨M0, (u, log)⟩ =
          Outcome.aborted ⟨M0, (u, log)⟩)
      ∧ (first ≤ last → (∀ idx t, (fb idx t).isAborted = false) →
          (spmd_foreach first last fb ⟨M0, u⟩).isAborted = false)
      ∧ (first ≤ last → (∀ idx, Body.returns (fb idx)) →
          (spmd_foreach first last fb ⟨M0, u⟩).isReturned = true)
      ∧ ((∀ idx t, (fb idx t).isAborted = false) →
          ((spmd_foreach first last fb ⟨M0, u⟩).isAborted = true ↔ last < first)) := by
  have habort : ∀ (τ : Type) (g : ForeachBody τ) (t : SpmdState τ), last < first →
      spmd_foreach first last g t = Outcome.aborted t := by
    intro τ g t h
    have hn : ¬ first ≤ last := by omega
    unfold spmd_foreach
    simp only [hn, not_false_eq_true, if_true]
  have hno : first ≤ last → (∀ idx t, (fb idx t).isAborted = false) →
      (spmd_foreach first last fb ⟨M0, u⟩).isAborted = false := by
    intro hle hfb
    unfold spmd_foreach
    simp only [hle, not_true_eq_false, if_false]
    exact foreachLoop_not_aborted _ _ fb hfb _ _ _ _
  refine ⟨fun h => habort _ _ _ h, hno,
    fun hle hfb => spmd_foreach_returns first last fb hfb hle _, fun hfb => ⟨fun h => ?_, fun h => ?_⟩⟩
  · by_contra hc
    have := hno (by omega) hfb
    rw [this] at h
    exact Bool.false_ne_true h
  · rw [habort _ fb _ h]
    rfl

/-- C11, witness: `spmd_foreach(5, 3, body)` aborts with nothing logged and the
mask untouched; `spmd_foreach(3, 5, body)` returns. -/
theorem spmd_foreach_contract_witness :
    spmd_foreach 5 3 (observedIdx (skipLoopBody : ForeachBody Unit)) ⟨exec_init, ((), [])⟩ =
        Outcome.aborted ⟨exec_init, ((), [])⟩
      ∧ (spmd_foreach 3 5 (skipLoopBody : ForeachBody Unit) ⟨exec_init, ()⟩).isReturned = true
      ∧ (spmd_foreach 3 5 (skipLoopBody : ForeachBody Unit) ⟨exec_init, ()⟩).isAborted = false :=
  ⟨(spmd_foreach_contract 5 3 (skipLoopBody : ForeachBody Unit) exec_init () []).1 (by decide),
   (spmd_foreach_contract 3 5 (skipLoopBody : ForeachBody Unit) exec_init () []).2.2.1 (by decide)
     (fun _ _ => rfl),
   by decide⟩

/-! ## C16: mask algebra -/

theorem Word32.signBit_and (a b : Word32) :
    (a.and b).signBit = 1 ↔ (a.signBit = 1 ∧ b.signBit = 1) := by
  have ha := a.isLt
  have hb := b.isLt
  have hab : a.val &&& b.val ≤ a.val := Nat.and_le_left
  have h := Nat.testBit_and a.val b.val 31
  rw [Nat.testBit_to_div_mod, Nat.testBit_to_div_mod, Nat.testBit_to_div_mod] at h
  have h' : ((a.val &&& b.val) / 2 ^ 31 % 2 = 1) ↔
      (a.val / 2 ^ 31 % 2 = 1 ∧ b.val / 2 ^ 31 % 2 = 1) := by
    rw [← Bool.decide_and] at h
    exact decide_eq_decide.mp h
  norm_num at h'
  unfold Word32.signBit Word32.and
  simp only
  omega

theorem Word32.not_lane (c : Word32) (hc : c.canonical) :
    (c.cmpeq Word32.zero).canonical
      ∧ ((c.cmpeq Word32.zero).signBit = 1 ↔ ¬ c.signBit = 1)
      ∧ (c.cmpeq Word32.zero).cmpeq Word32.zero = c
      ∧ c.and (c.cmpeq Word32.zero) = Word32.zero := by
  rcases hc with rfl | rfl <;> decide

/-- C16. Mask algebra. `operator&` on `exec_t` is the lane-wise bitwise AND of
its arguments, so a lane is active in `a & b` exactly when it is active in
both. For every mask `a` whose lanes are canonical, `~a` is a canonical mask
whose lane `i` is active exactly when lane `i` of `a` is inactive, `~~a = a`,
and `a & ~a` is the fully inactive mask. -/
theorem exec_mask_algebra (a b : exec_t) (hcanon : a._mask.canonical) :
    (∀ i : Fin 4, ((a.and b)._mask.lane i).val =
        (a._mask.lane i).val &&& (b._mask.lane i).val)
      ∧ (∀ i : Fin 4, (a.and b).active i ↔ (a.active i ∧ b.active i))
      ∧ a.not._mask.canonical
      ∧ (∀ i : Fin 4, a.not.active i ↔ ¬ a.active i)
      ∧ a.not.not = a
      ∧ a.and a.not = ⟨_mm_setzero_ps⟩ := by
  obtain ⟨h0, h1, h2, h3⟩ := hcanon
  have n0 := Word32.not_lane _ h0
  have n1 := Word32.not_lane _ h1
  have n2 := Word32.not_lane _ h2
  have n3 := Word32.not_lane _ h3
  refine ⟨fun i => exec_and_lane a b i, fun i => ?_, ⟨n0.1, n1.1, n2.1, n3.1⟩, fun i => ?_, ?_, ?_⟩
  · unfold exec_t.active
    fin_cases i
    · exact Word32.signBit_and _ _
    · exact Word32.signBit_and _ _
    · exact Word32.signBit_and _ _
    · exact Word32.signBit_and _ _
  · unfold exec_t.active
    fin_cases i
    · exact n0.2.1
    · exact n1.2.1
    · exact n2.2.1
    · exact n3.2.1
  · obtain ⟨⟨a0, a1, a2, a3⟩⟩ := a
    simp only [exec_t.not, _mm_cmpeq_ps, _mm_setzero_ps, m128.map2]
    simp only at n0 n1 n2 n3
    rw [n0.2.2.1, n1.2.2.1, n2.2.2.1, n3.2.2.1]
  · obtain ⟨⟨a0, a1, a2, a3⟩⟩ := a
    simp only [exec_t.and, exec_t.not, _mm_and_ps, _mm_cmpeq_ps, _mm_setzero_ps, m128.map2]
    simp only at n0 n1 n2 n3
    rw [n0.2.2.2, n1.2.2.2, n2.2.2.2, n3.2.2.2]

/-- C16, witness: the complement of the canonical mask with lanes 0 and 2 on
has lanes 1 and 3 on. -/
theorem exec_mask_algebra_witness :
    (m128.ofBools true false true false).canonical
      ∧ (⟨m128.ofBools true false true false⟩ : exec_t).not = ⟨m128.ofBools false true false true⟩
      ∧ (⟨m128.ofBools true false true false⟩ : exec_t).not.not =
          ⟨m128.ofBools true false true false⟩
      ∧ (⟨m128.ofBools true false true false⟩ : exec_t).and
          (⟨m128.ofBools true false true false⟩ : exec_t).not = ⟨_mm_setzero_ps⟩ :=
  ⟨by decide, by decide,
   (exec_mask_algebra ⟨m128.ofBools true false true false⟩ exec_init (by decide)).2.2.2.2.1,
   (exec_mask_algebra ⟨m128.ofBools true false true false⟩ exec_init (by decide)).2.2.2.2.2⟩

/-! ## C15 and C18: the gather, and the fast paths against the general paths -/

theorem assign_general (exec : exec_t) (mem : Mem) (r : vfloat_ref) (value : vfloat)
    (h : _mm_movemask_ps exec._mask ≠ 15) :
    r.assign exec mem value = maskedStore (_mm_movemask_ps exec._mask) mem r._value value._value := by
  unfold vfloat_ref.assign maskedStore
  simp only [h, if_false]

theorem load_general (exec : exec_t) (mem : Mem) (r : vfloat_ref) (loaded0 : m128)
    (h : _mm_movemask_ps exec._mask ≠ 15) :
    r.load exec mem loaded0 = ⟨maskedLoad (_mm_movemask_ps exec._mask) mem r._value loaded0⟩ := by
  unfold vfloat_ref.load maskedLoad
  simp only [h, if_false]

theorem store_eq_maskedStore (mem : Mem) (p : Int) (v : m128) :
    _mm_store_ps mem p v = maskedStore 15 mem p v := by
  have b0 : (15 &&& (1 <<< 0) ≠ 0) = True := by decide
  have b1 : (15 &&& (1 <<< 1) ≠ 0) = True := by decide
  have b2 : (15 &&& (1 <<< 2) ≠ 0) = True := by decide
  have b3 : (15 &&& (1 <<< 3) ≠ 0) = True := by decide
  have v0 : (0 : Fin 4).val = 0 := rfl
  have v1 : (1 : Fin 4).val = 1 := rfl
  have v2 : (2 : Fin 4).val = 2 := rfl
  have v3 : (3 : Fin 4).val = 3 := rfl
  funext a
  unfold maskedStore _mm_store_ps
  simp only [List.foldl, v0, v1, v2, v3]
  simp only [b0, b1, b2, b3, if_true, Mem.write, m128.lane, Nat.cast_zero, Nat.cast_one,
    Nat.cast_ofNat, add_zero]
  split_ifs <;> first | rfl | omega

theorem load_eq_maskedLoad (mem : Mem) (p : Int) (loaded0 : m128) :
    _mm_load_ps mem p = maskedLoad 15 mem p loaded0 := by
  have b0 : (15 &&& (1 <<< 0) ≠ 0) = True := by decide
  have b1 : (15 &&& (1 <<< 1) ≠ 0) = True := by decide
  have b2 : (15 &&& (1 <<< 2) ≠ 0) = True := by decide
  have b3 : (15 &&& (1 <<< 3) ≠ 0) = True := by decide
  have v0 : (0 : Fin 4).val = 0 := rfl
  have v1 : (1 : Fin 4).val = 1 := rfl
  have v2 : (2 : Fin 4).val = 2 := rfl
  have v3 : (3 : Fin 4).val = 3 := rfl
  unfold maskedLoad _mm_load_ps
  simp only [List.foldl, v0, v1, v2, v3]
  simp only [b0, b1, b2, b3, if_true, m128.setLane, Nat.cast_zero, Nat.cast_one,
    Nat.cast_ofNat, add_zero]

/-- C15 (as amended). Masked gather. For every current mask, memory, base and
offset vector, converting the reference `idx[base]` to a `vfloat` yields a
vector whose lane `i` equals the memory content at `base + offset[0] + i`
(with `offset[0]` the lowest lane read as a signed `int`) for every active
lane `i`, whatever the scratch array held before; when the offsets are
consecutive (`offset[i] = offset[0] + i` for every lane) that is the content
at `base + offset[i]`. The result is one vector load when every lane is active
and the per-lane masked load otherwise, and the conversion leaves memory and
the mask as they were. -/
theorem vfloat_ref_gather (exec : exec_t) (mem : Mem) (ptr : Int) (idx : lint)
    (loaded0 : m128) :
    (∀ i : Fin 4, exec.active i →
        ((idx.index ptr).load exec mem loaded0)._value.lane i =
          mem (ptr + (idx._value.lane 0).toInt + (i.val : Int)))
      ∧ ((∀ i : Fin 4, (idx._value.lane i).toInt = (idx._value.lane 0).toInt + (i.val : Int)) →
          ∀ i : Fin 4, exec.active i →
            ((idx.index ptr).load exec mem loaded0)._value.lane i =
              mem (ptr + (idx._value.lane i).toInt))
      ∧ ((∀ i : Fin 4, exec.active i) →
          (idx.index ptr).load exec mem loaded0 =
            ⟨_mm_load_ps mem (ptr + (idx._value.lane 0).toInt)⟩)
      ∧ (¬ (∀ i : Fin 4, exec.active i) →
          (idx.index ptr).load exec mem loaded0 =
            ⟨maskedLoad (_mm_movemask_ps exec._mask) mem (ptr + (idx._value.lane 0).toInt)
              loaded0⟩)
      ∧ ((idx.index ptr).gather loaded0 ⟨exec, mem⟩).1 = (idx.index ptr).load exec mem loaded0
      ∧ ((idx.index ptr).gather loaded0 ⟨exec, mem⟩).2.exec = exec
      ∧ ((idx.index ptr).gather loaded0 ⟨exec, mem⟩).2.user = mem := by
  have hp : (idx.index ptr)._value = ptr + (idx._value.lane 0).toInt := rfl
  have h1 : ∀ i : Fin 4, exec.active i →
      ((idx.index ptr).load exec mem loaded0)._value.lane i =
        mem (ptr + (idx._value.lane 0).toInt + (i.val : Int)) := by
    intro i hi
    rw [← hp]
    exact load_lane exec mem _ loaded0 i hi
  refine ⟨h1, fun hcons i hi => ?_, fun hall => ?_, fun hn => ?_, rfl, rfl, rfl⟩
  · rw [hcons i, ← add_assoc]
    exact h1 i hi
  · have h := (movemask_full exec).mpr hall
    rw [← hp]
    unfold vfloat_ref.load
    simp only [h, if_true]
  · rw [← hp]
    exact load_general exec mem _ loaded0 (fun h => hn ((movemask_full exec).mp h))

/-- C15, witness: with lanes 1 and 3 active and the consecutive offsets
`8, 9, 10, 11` from base 100, the gather returns elements 109 and 111 in lanes
1 and 3; with every lane active it returns elements 108 to 111. -/
theorem vfloat_ref_gather_witness :
    (∀ i : Fin 4, ((laneIndices 8)._value.lane i).toInt =
        ((laneIndices 8)._value.lane 0).toInt + (i.val : Int))
      ∧ (∀ i : Fin 4, (⟨m128.ofBools false true false true⟩ : exec_t).active i →
        (((laneIndices 8).index 100).load ⟨m128.ofBools false true false true⟩
          (fun a => Word32.ofInt a) _mm_setzero_ps)._value.lane i =
          (fun a => Word32.ofInt a) (100 + ((laneIndices 8)._value.lane i).toInt))
      ∧ ((laneIndices 8).index 100).load ⟨m128.ofBools false true false true⟩
          (fun a => Word32.ofInt a) _mm_setzero_ps = ⟨m128.ofNats 0 109 0 111⟩
      ∧ ((laneIndices 8).index 100).load exec_init (fun a => Word32.ofInt a) _mm_setzero_ps =
          ⟨m128.ofNats 108 109 110 111⟩ :=
  ⟨by decide,
   (vfloat_ref_gather ⟨m128.ofBools false true false true⟩ (fun a => Word32.ofInt a) 100
      (laneIndices 8) _mm_setzero_ps).2.1 (by decide),
   by decide, by decide⟩

/-- C15, counterexample to the claim as stated (target address
`base + offset[i]` for every offset vector). With offsets `2, 9, 0, 1` from
base 50, memory holding at each element its own address, and only lane 1
active, the target address of lane 1 is 59, yet lane 1 of the gathered vector
is 53, the content of element `50 + 2 + 1`. -/
theorem vfloat_ref_gather_counterexample :
    (⟨m128.ofBools false true false false⟩ : exec_t).active 1
      ∧ ((⟨m128.ofNats 2 9 0 1⟩ : lint)._value.lane 1).toInt = 9
      ∧ (fun a => Word32.ofInt a : Mem) (50 + 9) = Fin.ofNat 59
      ∧ (((⟨m128.ofNats 2 9 0 1⟩ : lint).index 50).load ⟨m128.ofBools false true false false⟩
          (fun a => Word32.ofInt a) _mm_setzero_ps)._value.lane 1 = Fin.ofNat 53 := by
  decide

/-- C18. The all-on fast paths refine the general paths. For every memory,
base, offset vector and value, when every lane of the current mask is active
the scatter through `idx[ptr]` (one vector store) leaves memory exactly as the
per-lane masked-store loop does with mask `0b1111`, and the gather (one vector
load) returns exactly the vector the per-lane masked-load loop does with mask
`0b1111`, whatever the scratch array held. The per-lane loops are the ones the
header runs when some lane is inactive. -/
theorem fast_paths_refine (exec : exec_t) (mem : Mem) (ptr : Int) (idx : lint)
    (value : vfloat) (loaded0 : m128) (hfull : ∀ i : Fin 4, exec.active i) :
    (idx.index ptr).assign exec mem value = _mm_store_ps mem (idx.index ptr)._value value._value
      ∧ (idx.index ptr).assign exec mem value =
          maskedStore 15 mem (idx.index ptr)._value value._value
      ∧ (idx.index ptr).load exec mem loaded0 = ⟨_mm_load_ps mem (idx.index ptr)._value⟩
      ∧ (idx.index ptr).load exec mem loaded0 =
          ⟨maskedLoad 15 mem (idx.index ptr)._value loaded0⟩
      ∧ (∀ e : exec_t, _mm_movemask_ps e._mask ≠ 15 →
          (idx.index ptr).assign e mem value =
              maskedStore (_mm_movemask_ps e._mask) mem (idx.index ptr)._value value._value
            ∧ (idx.index ptr).load e mem loaded0 =
              ⟨maskedLoad (_mm_movemask_ps e._mask) mem (idx.index ptr)._value loaded0⟩) := by
  have h := (movemask_full exec).mpr hfull
  have hs : (idx.index ptr).assign exec mem value =
      _mm_store_ps mem (idx.index ptr)._value value._value := by
    unfold vfloat_ref.assign
    simp only [h, if_true]
  have hl : (idx.index ptr).load exec mem loaded0 = ⟨_mm_load_ps mem (idx.index ptr)._value⟩ := by
    unfold vfloat_ref.load
    simp only [h, if_true]
  refine ⟨hs, ?_, hl, ?_, fun e he => ⟨assign_general e mem _ value he, load_general e mem _ loaded0 he⟩⟩
  · rw [hs, store_eq_maskedStore]
  · rw [hl, load_eq_maskedLoad mem _ loaded0]

/-- C18, witness: under the initial mask the scatter at element 8 is the masked
store with all four bits set. -/
theorem fast_paths_refine_witness :
    (∀ i : Fin 4, exec_init.active i)
      ∧ ((laneIndices 8).index 0).assign exec_init (fun _ => Word32.zero)
          ⟨m128.ofNats 11 22 33 44⟩ =
        maskedStore 15 (fun _ => Word32.zero) ((laneIndices 8).index 0)._value
          (m128.ofNats 11 22 33 44)
      ∧ maskedLoad 15 (fun a => Word32.ofInt a) 8 _mm_setzero_ps = m128.ofNats 8 9 10 11 :=
  ⟨by decide,
   (fast_paths_refine exec_init (fun _ => Word32.zero) 0 (laneIndices 8)
      ⟨m128.ofNats 11 22 33 44⟩ _mm_setzero_ps (by decide)).2.1,
   by decide⟩

/-! ## C12: an assignment inside `spmd_if` -/

theorem Word32.canonical_and (a b : Word32) (ha : a.canonical) (hb : b.canonical) :
    (a.and b).canonical := by
  rcases ha with rfl | rfl <;> rcases hb with rfl | rfl <;> decide

theorem exec_and_canonical (a b : exec_t) (ha : a._mask.canonical) (hb : b._mask.canonical) :
    (a.and b)._mask.canonical := by
  obtain ⟨a0, a1, a2, a3⟩ := ha
  obtain ⟨b0, b1, b2, b3⟩ := hb
  exact ⟨Word32.canonical_and _ _ a0 b0, Word32.canonical_and _ _ a1 b1,
    Word32.canonical_and _ _ a2 b2, Word32.canonical_and _ _ a3 b3⟩

/-- C12. For every ambient mask `M0` (a lane mask: each lane all zeros or all
ones), every canonical condition and vectors `v` and `w`,
`spmd_if(cond, [&] { v = w; })` returns with the mask `M0`, and `v` then holds
the bit pattern `w[i]` on exactly the lanes active in `M0 AND cond` and its
previous bit pattern on every other lane. -/
theorem spmd_if_assign (cond : vbool) (v w : vfloat) (M0 : exec_t)
    (hM0 : M0._mask.canonical) (hcond : cond._value.canonical) :
    ∃ v', spmd_if cond (assignBody w) ⟨M0, v⟩ = Outcome.returned ⟨M0, v'⟩
      ∧ ∀ i : Fin 4, v'._value.lane i =
          if (M0.and ⟨cond._value⟩).active i then w._value.lane i else v._value.lane i := by
  have hnarrow := exec_and_canonical M0 ⟨cond._value⟩ hM0 hcond
  unfold spmd_if
  by_cases hm : _mm_movemask_ps (M0.and ⟨cond._value⟩)._mask ≠ 0
  · refine ⟨vfloat.assign (M0.and ⟨cond._value⟩) v w, ?_, ?_⟩
    · simp only
      rw [if_pos hm]
      rfl
    · exact vfloat_assign_lane _ v w hnarrow
  · refine ⟨v, ?_, ?_⟩
    · simp only
      rw [if_neg hm]
      rfl
    · intro i
      have hno : ¬ (M0.and ⟨cond._value⟩).active i :=
        fun hi => hm ((movemask_ne_zero_iff _).mpr ⟨i, hi⟩)
      rw [if_neg hno]

/-- C12, witness (scenario B): with `x = [-1, 2, -3, 4]` the condition
`x < 0.0` is true on lanes 0 and 2 only, and under the initial mask the
assignment `v = w` inside `spmd_if` changes positions 0 and 2 of `v` only. -/
theorem spmd_if_assign_witness :
    scenarioX.lt Word32.zero = ⟨m128.ofBools true false true false⟩
      ∧ (spmd_if (scenarioX.lt Word32.zero) (assignBody ⟨m128.ofNats 5 6 7 8⟩)
          ⟨exec_init, ⟨m128.ofNats 1 2 3 4⟩⟩).state.user = ⟨m128.ofNats 5 2 7 4⟩
      ∧ (∃ v', spmd_if (scenarioX.lt Word32.zero) (assignBody ⟨m128.ofNats 5 6 7 8⟩)
            ⟨exec_init, ⟨m128.ofNats 1 2 3 4⟩⟩ = Outcome.returned ⟨exec_init, v'⟩
          ∧ ∀ i : Fin 4, v'._value.lane i =
              if (exec_init.and ⟨(scenarioX.lt Word32.zero)._value⟩).active i
                then (m128.ofNats 5 6 7 8).lane i else (m128.ofNats 1 2 3 4).lane i) :=
  ⟨by decide, by decide,
   spmd_if_assign (scenarioX.lt Word32.zero) ⟨m128.ofNats 1 2 3 4⟩ ⟨m128.ofNats 5 6 7 8⟩
     exec_init (by decide) (by decide)⟩

/-! ## C17: the canonical-mask invariant -/

theorem Word32.cmpeq_canonical (a b : Word32) : (a.cmpeq b).canonical := by
  unfold Word32.cmpeq Word32.canonical
  split
  · exact Or.inr rfl
  · exact Or.inl rfl

theorem Word32.cmplt_i_canonical (a b : Word32) : (a.cmplt_i b).canonical := by
  unfold Word32.cmplt_i Word32.canonical
  split
  · exact Or.inr rfl
  · exact Or.inl rfl

theorem exec_not_canonical (a : exec_t) : a.not._mask.canonical :=
  ⟨Word32.cmpeq_canonical _ _, Word32.cmpeq_canonical _ _, Word32.cmpeq_canonical _ _,
    Word32.cmpeq_canonical _ _⟩

theorem cmplt_epi32_canonical (a b : m128i) :
    (_mm_castsi128_ps (_mm_cmplt_epi32 a b)).canonical :=
  ⟨Word32.cmplt_i_canonical _ _, Word32.cmplt_i_canonical _ _, Word32.cmplt_i_canonical _ _,
    Word32.cmplt_i_canonical _ _⟩

theorem safe_branch (b : Body (List exec_t)) (hb : b.canonicalSafe) (m : exec_t)
    (hm : m._mask.canonical) (log : List exec_t) (hlog : ∀ x ∈ log, x._mask.canonical)
    (c : Prop) [Decidable c] :
    (∀ x ∈ (if c then b ⟨m, log⟩ else Outcome.returned ⟨m, log⟩).state.user,
        x._mask.canonical)
      ∧ ∀ t, (if c then b ⟨m, log⟩ else Outcome.returned ⟨m, log⟩) = Outcome.returned t →
          t.exec = m := by
  by_cases hc : c
  · simp only [hc, if_true]
    exact hb ⟨m, log⟩ hm hlog
  · simp only [hc, if_false]
    refine ⟨hlog, ?_⟩
    intro t ht
    simp only [Outcome.returned.injEq] at ht
    rw [← ht]

theorem safe_restore (r : Outcome (List exec_t)) (e : exec_t)
    (hr : ∀ x ∈ r.state.user, x._mask.canonical) :
    (∀ x ∈ (r.bind fun s2 => Outcome.returned { s2 with exec := e }).state.user,
        x._mask.canonical)
      ∧ ∀ s', (r.bind fun s2 => Outcome.returned { s2 with exec := e }) = Outcome.returned s' →
          s'.exec = e := by
  refine ⟨?_, fun s' h => bind_restore_exec r e s' h⟩
  cases r <;> exact hr

theorem safe_scope (b : Body (List exec_t)) (hb : b.canonicalSafe) (m e : exec_t)
    (hm : m._mask.canonical) (log : List exec_t) (hlog : ∀ x ∈ log, x._mask.canonical)
    (c : Prop) [Decidable c] :
    (∀ x ∈ ((if c then b ⟨m, log⟩ else Outcome.returned ⟨m, log⟩).bind fun s2 =>
        Outcome.returned { s2 with exec := e }).state.user, x._mask.canonical)
      ∧ ∀ s', ((if c then b ⟨m, log⟩ else Outcome.returned ⟨m, log⟩).bind fun s2 =>
          Outcome.returned { s2 with exec := e }) = Outcome.returned s' → s'.exec = e :=
  safe_restore _ e (safe_branch b hb m hm log hlog c).1

theorem safe_bind (r : Outcome (List exec_t)) (k : Body (List exec_t)) (e : exec_t)
    (hr : ∀ x ∈ r.state.user, x._mask.canonical)
    (hk : ∀ t, r = Outcome.returned t →
      (∀ x ∈ (k t).state.user, x._mask.canonical) ∧ ∀ s', k t = Outcome.returned s' → s'.exec = e) :
    (∀ x ∈ (r.bind k).state.user, x._mask.canonical)
      ∧ ∀ s', r.bind k = Outcome.returned s' → s'.exec = e := by
  cases r with
  | returned t => exact hk t rfl
  | thrown t => exact ⟨hr, fun s' h => by simp [Outcome.bind] at h⟩
  | aborted t => exact ⟨hr, fun s' h => by simp [Outcome.bind] at h⟩
  | unfinished t => exact ⟨hr, fun s' h => by simp [Outcome.bind] at h⟩

theorem canonicalSafe_if (cond : vbool) (hcond : cond._value.canonical)
    (b : Body (List exec_t)) (hb : b.canonicalSafe) : Body.canonicalSafe (spmd_if cond b) := by
  intro s hs hlog
  unfold spmd_if
  exact safe_scope b hb _ s.exec (exec_and_canonical s.exec ⟨cond._value⟩ hs hcond) s.user hlog _

theorem canonicalSafe_ifelse (cond : vbool) (hcond : cond._value.canonical)
    (b1 b2 : Body (List exec_t)) (h1 : b1.canonicalSafe) (h2 : b2.canonicalSafe) :
    Body.canonicalSafe (spmd_ifelse cond b1 b2) := by
  intro s hs hlog
  unfold spmd_ifelse
  have hn := exec_and_canonical s.exec ⟨cond._value⟩ hs hcond
  obtain ⟨hr1, he1⟩ := safe_branch b1 h1 _ hn s.user hlog
    (_mm_movemask_ps (s.exec.and ⟨cond._value⟩)._mask ≠ 0)
  apply safe_bind _ _ s.exec hr1
  intro t ht
  have hlogt : ∀ x ∈ t.user, x._mask.canonical := by
    have := hr1
    rw [ht] at this
    exact this
  have hm3 : (t.exec.not.and s.exec)._mask.canonical :=
    exec_and_canonical _ _ (exec_not_canonical _) hs
  exact safe_scope b2 h2 _ s.exec hm3 t.user hlogt _

theorem canonicalSafe_partial (p : Int) (fb : ForeachBody (List exec_t))
    (hfb : ∀ idx, Body.canonicalSafe (fb idx)) (loopIndex : m128i) :
    Body.canonicalSafe (foreachPartial p fb loopIndex) := by
  intro s hs hlog
  unfold foreachPartial
  by_cases hp : p > 0
  · simp only [hp, if_true]
    have hm := exec_and_canonical s.exec _ hs
      (cmplt_epi32_canonical programIndex._value (_mm_set1_epi32 p))
    have h := safe_scope (fb ⟨loopIndex⟩) (hfb _) _ s.exec hm s.user hlog True
    simpa using h
  · simp only [hp, if_false]
    refine ⟨hlog, ?_⟩
    intro s' h
    simp only [Outcome.returned.injEq] at h
    rw [← h]

theorem canonicalSafe_loop (N p : Int) (fb : ForeachBody (List exec_t))
    (hfb : ∀ idx, Body.canonicalSafe (fb idx)) :
    ∀ (fuel : Nat) (i : Int) (loopIndex : m128i),
      Body.canonicalSafe (foreachLoop N p fb fuel i loopIndex) := by
  intro fuel
  induction fuel with
  | zero =>
    intro i loopIndex s hs hlog
    unfold foreachLoop
    split
    · exact ⟨hlog, fun s' h => by simp at h⟩
    · exact canonicalSafe_partial p fb hfb loopIndex s hs hlog
  | succ fuel ih =>
    intro i loopIndex s hs hlog
    unfold foreachLoop
    split
    · obtain ⟨hr, he⟩ := hfb ⟨loopIndex⟩ s hs hlog
      apply safe_bind _ _ s.exec hr
      intro t ht
      have hte := he t ht
      have hlogt : ∀ x ∈ t.user, x._mask.canonical := by
        have := hr
        rw [ht] at this
        exact this
      have := ih (wrap32 (i + programCount))
        (_mm_add_epi32 loopIndex (_mm_set1_epi32 programCount)) t (hte ▸ hs) hlogt
      rw [hte] at this
      exact this
    · exact canonicalSafe_partial p fb hfb loopIndex s hs hlog

theorem canonicalSafe_foreach (first last : Int) (fb : ForeachBody (List exec_t))
    (hfb : ∀ idx, Body.canonicalSafe (fb idx)) :
    Body.canonicalSafe (spmd_foreach first last fb) := by
  intro s hs hlog
  unfold spmd_foreach
  split
  · exact ⟨hlog, fun s' h => by simp at h⟩
  · exact canonicalSafe_loop _ _ fb hfb _ _ _ s hs hlog

theorem Prog.run_canonicalSafe (p : Prog) (hp : p.condsCanonical) :
    Body.canonicalSafe p.run := by
  induction p with
  | point =>
    intro s hs hlog
    refine ⟨?_, fun s' h => ?_⟩
    · intro m hm
      simp only [Prog.run, Outcome.state, List.mem_append, List.mem_singleton] at hm
      rcases hm with hm | hm
      · exact hlog m hm
      · rw [hm]
        exact hs
    · simp only [Prog.run, Outcome.returned.injEq] at h
      rw [← h]
  | seq p q ihp ihq =>
    intro s hs hlog
    obtain ⟨hr, he⟩ := ihp hp.1 s hs hlog
    simp only [Prog.run]
    apply safe_bind _ _ s.exec hr
    intro t ht
    have hte := he t ht
    have hlogt : ∀ x ∈ t.user, x._mask.canonical := by
      have := hr
      rw [ht] at this
      exact this
    have := ihq hp.2 t (hte ▸ hs) hlogt
    rw [hte] at this
    exact this
  | ifc cond p ih =>
    exact canonicalSafe_if cond hp.1 _ (ih hp.2)
  | ifelse cond p q ihp ihq =>
    exact canonicalSafe_ifelse cond hp.1 _ _ (ihp hp.2.1) (ihq hp.2.2)
  | foreach first last body ih =>
    exact canonicalSafe_foreach first last _ (fun idx => ih idx (hp idx))

theorem exec_init_canonical : exec_init._mask.canonical := by decide

/-- C17. Canonical-mask invariant. For every program built by nesting and
sequencing `spmd_if`, `spmd_ifelse` and `spmd_foreach` in which every
condition passed to a combinator has canonical lanes, run from the initial
all-active mask, the mask in force at every point reached has canonical lanes
(each lane all zeros or all ones). Consequently, at every such point, the
bitwise blend of a masked assignment takes lane `i` from the source exactly
when the sign-bit test reports lane `i` active, and keeps the destination's
lane otherwise. -/
theorem canonical_mask_invariant (p : Prog) (hp : p.condsCanonical) :
    (∀ m ∈ (p.run ⟨exec_init, []⟩).state.user, m._mask.canonical)
      ∧ (∀ m ∈ (p.run ⟨exec_init, []⟩).state.user, ∀ (v w : vfloat) (i : Fin 4),
          (vfloat.assign m v w)._value.lane i =
            if m.active i then w._value.lane i else v._value.lane i)
      ∧ (∀ s', p.run ⟨exec_init, []⟩ = Outcome.returned s' → s'.exec = exec_init) := by
  obtain ⟨h1, h2⟩ := Prog.run_canonicalSafe p hp ⟨exec_init, []⟩ exec_init_canonical
    (fun m hm => absurd hm (List.not_mem_nil m))
  exact ⟨h1, fun m hm v w i => vfloat_assign_lane m v w (h1 m hm) i, h2⟩

/-- C17, witness: the example program has canonical conditions; the masks at
its five points are `1111`, `1100`, `0100`, `1000`, `1000` (lane 0 first). -/
theorem canonical_mask_invariant_witness :
    sampleProg.condsCanonical
      ∧ (∀ m ∈ (sampleProg.run ⟨exec_init, []⟩).state.user, m._mask.canonical)
      ∧ (sampleProg.run ⟨exec_init, []⟩).state.user =
          [⟨m128.ofBools true true true true⟩, ⟨m128.ofBools true true false false⟩,
           ⟨m128.ofBools false true false false⟩, ⟨m128.ofBools true false false false⟩,
           ⟨m128.ofBools true false false false⟩] :=
  have h : sampleProg.condsCanonical :=
    ⟨trivial, by decide, trivial, by decide, trivial, fun _ => trivial⟩
  ⟨h, (canonical_mask_invariant sampleProg h).1, by decide⟩

/-! ## C14: the all-off skip -/

theorem canonical_off (m : exec_t)
    (h0 : _mm_movemask_ps m._mask = 0) (i : Fin 4) : ¬ m.active i :=
  fun hi => ((movemask_ne_zero_iff m).mpr ⟨i, hi⟩) h0

theorem vfloat_assign_off (m : exec_t) (hm : m._mask.canonical)
    (h0 : _mm_movemask_ps m._mask = 0) (v w : vfloat) : vfloat.assign m v w = v := by
  have h : (vfloat.assign m v w)._value = v._value := by
    apply m128.ext_lane
    intro i
    rw [vfloat_assign_lane m v w hm i, if_neg (canonical_off m h0 i)]
  cases v
  cases hv : vfloat.assign m ⟨_⟩ w
  simp_all

theorem scatter_off (m : exec_t) (h0 : _mm_movemask_ps m._mask = 0) (mem : Mem)
    (r : vfloat_ref) (w : vfloat) : r.assign m mem w = mem := by
  funext a
  exact assign_frame m mem r w a
    (fun i hi => absurd h0 ((movemask_ne_zero_iff m).mpr ⟨i, hi⟩))

theorem step_off (m : exec_t) (hm : m._mask.canonical) (h0 : _mm_movemask_ps m._mask = 0)
    (st : Store) (c : Stmt) : c.step m st = st := by
  cases c with
  | assign dst rhs =>
    simp only [Stmt.step, vfloat_assign_off m hm h0, Function.update_eq_self]
  | scatter ref rhs =>
    simp only [Stmt.step, scatter_off m h0]

theorem stmts_off (m : exec_t) (hm : m._mask.canonical) (h0 : _mm_movemask_ps m._mask = 0)
    (l : List Stmt) (st : Store) : l.foldl (fun st c => c.step m st) st = st := by
  induction l with
  | nil => rfl
  | cons c l ih => rw [List.foldl_cons, step_off m hm h0, ih]

theorem branch_always (m : exec_t) (hm : m._mask.canonical) (l : List Stmt) (st : Store) :
    (if _mm_movemask_ps m._mask ≠ 0 then stmtsBody l ⟨m, st⟩ else Outcome.returned ⟨m, st⟩) =
      stmtsBody l ⟨m, st⟩ := by
  by_cases h : _mm_movemask_ps m._mask ≠ 0
  · rw [if_pos h]
  · rw [if_neg h]
    have h0 : _mm_movemask_ps m._mask = 0 := by omega
    simp only [stmtsBody, stmts_off m hm h0]

/-- C14. The all-off skip is only an optimisation. For every ambient mask and
condition that are lane masks (each lane all zeros or all ones) and every body
that is a sequence of masked `vfloat` assignments and masked scatters,
`spmd_if` ends exactly as the variant that invokes the body whatever the
narrowed mask (same variables, memory and mask), and `spmd_ifelse` ends
exactly as the variant that invokes both bodies whatever their masks. -/
theorem all_off_skip_is_optimisation (cond : vbool) (l l1 l2 : List Stmt) (M0 : exec_t)
    (st : Store) (hM0 : M0._mask.canonical) (hcond : cond._value.canonical) :
    spmd_if cond (stmtsBody l) ⟨M0, st⟩ = spmd_if_always cond (stmtsBody l) ⟨M0, st⟩
      ∧ spmd_ifelse cond (stmtsBody l1) (stmtsBody l2) ⟨M0, st⟩ =
          spmd_ifelse_always cond (stmtsBody l1) (stmtsBody l2) ⟨M0, st⟩ := by
  have hn := exec_and_canonical M0 ⟨cond._value⟩ hM0 hcond
  have he : ((M0.and ⟨cond._value⟩).not.and M0)._mask.canonical :=
    exec_and_canonical _ _ (exec_not_canonical _) hM0
  constructor
  · unfold spmd_if spmd_if_always
    simp only
    rw [branch_always _ hn]
  · unfold spmd_ifelse spmd_ifelse_always
    simp only
    rw [branch_always _ hn]
    simp only [stmtsBody, Outcome.bind_returned]
    have := branch_always _ he l2
      (l1.foldl (fun st c => c.step (M0.and ⟨cond._value⟩) st) st)
    simp only [stmtsBody] at this
    rw [this]
    rfl

/-- C14, witness: under the initial mask and a condition false on every lane
the narrowed mask is empty; `spmd_if` skips the body, the variant runs it, and
both leave variable 0 and element 8 of memory as they were. -/
theorem all_off_skip_is_optimisation_witness :
    spmd_if ⟨m128.ofBools false false false false⟩
        (stmtsBody [Stmt.assign 0 (fun _ _ => ⟨m128.ofNats 5 6 7 8⟩),
          Stmt.scatter (fun _ _ => ⟨8⟩) (fun _ _ => ⟨m128.ofNats 5 6 7 8⟩)])
        ⟨exec_init, (fun _ => ⟨m128.ofNats 1 2 3 4⟩, fun _ => Word32.zero)⟩ =
      spmd_if_always ⟨m128.ofBools false false false false⟩
        (stmtsBody [Stmt.assign 0 (fun _ _ => ⟨m128.ofNats 5 6 7 8⟩),
          Stmt.scatter (fun _ _ => ⟨8⟩) (fun _ _ => ⟨m128.ofNats 5 6 7 8⟩)])
        ⟨exec_init, (fun _ => ⟨m128.ofNats 1 2 3 4⟩, fun _ => Word32.zero)⟩
      ∧ (spmd_if_always ⟨m128.ofBools false false false false⟩
        (stmtsBody [Stmt.assign 0 (fun _ _ => ⟨m128.ofNats 5 6 7 8⟩),
          Stmt.scatter (fun _ _ => ⟨8⟩) (fun _ _ => ⟨m128.ofNats 5 6 7 8⟩)])
        ⟨exec_init, (fun _ => ⟨m128.ofNats 1 2 3 4⟩, fun _ => Word32.zero)⟩).state.user.1 0 =
          ⟨m128.ofNats 1 2 3 4⟩
      ∧ (spmd_if_always ⟨m128.ofBools false false false false⟩
        (stmtsBody [Stmt.assign 0 (fun _ _ => ⟨m128.ofNats 5 6 7 8⟩),
          Stmt.scatter (fun _ _ => ⟨8⟩) (fun _ _ => ⟨m128.ofNats 5 6 7 8⟩)])
        ⟨exec_init, (fun _ => ⟨m128.ofNats 1 2 3 4⟩, fun _ => Word32.zero)⟩).state.user.2 8 =
          Word32.zero :=
  ⟨(all_off_skip_is_optimisation ⟨m128.ofBools false false false false⟩ _ [] []
      exec_init _ (by decide) (by decide)).1,
   by decide, by decide⟩

/-! ## C13: a scatter inside `spmd_foreach` -/

theorem index_laneIndices (base buf : Int) (h : isInt32 base) :
    (laneIndices base).index buf = ⟨buf + base⟩ := by
  unfold lint.index _mm_cvtsi128_si32
  simp only [laneIndices, Word32.toInt_ofInt base h]

theorem writtenRange_refl (first buf : Int) (value : lint → vfloat) (lo : Int) (mem : Mem) :
    writtenRange first buf value lo lo mem mem :=
  ⟨fun _ _ => rfl, fun j h1 h2 => absurd h2 (by omega)⟩

theorem writtenRange_trans (first buf : Int) (value : lint → vfloat) (lo mid hi : Int)
    (m0 m1 m2 : Mem) (h1 : lo ≤ mid) (h2 : mid ≤ hi)
    (w1 : writtenRange first buf value lo mid m0 m1)
    (w2 : writtenRange first buf value mid hi m1 m2) :
    writtenRange first buf value lo hi m0 m2 := by
  obtain ⟨f1, v1⟩ := w1
  obtain ⟨f2, v2⟩ := w2
  refine ⟨fun a ha => ?_, fun j hj1 hj2 => ?_⟩
  · rw [f2 a (by omega), f1 a (by omega)]
  · by_cases hj : j < mid
    · rw [f2 (buf + j) (by omega)]
      exact v1 j hj1 hj
    · exact v2 j (by omega) hj2

theorem scatterExpected_at (first : Int) (value : lint → vfloat) (base j : Int) (i : Fin 4)
    (_h0 : first ≤ base) (h4 : (base - first) % 4 = 0) (hj : j = base + (i.val : Int)) :
    scatterExpected first value j = (value (laneIndices base))._value.lane i := by
  have hi := i.isLt
  have e1 : first + 4 * ((j - first) / 4) = base := by omega
  have e2 : ((j - first) % 4).toNat = i.val := by omega
  unfold scatterExpected
  rw [e1, e2]
  congr 1
  apply Fin.ext
  simp [Fin.ofNat, Nat.mod_eq_of_lt hi]

theorem fullStep_written (first buf : Int) (value : lint → vfloat) (base : Int) (mem : Mem)
    (h0 : first ≤ base) (h4 : (base - first) % 4 = 0) :
    writtenRange first buf value base (base + 4) mem
      (_mm_store_ps mem (buf + base) (value (laneIndices base))._value) := by
  refine ⟨fun a ha => ?_, fun j hj1 hj2 => ?_⟩
  · unfold _mm_store_ps
    rw [if_neg (by omega), if_neg (by omega), if_neg (by omega), if_neg (by omega)]
  · have hj : j = base ∨ j = base + 1 ∨ j = base + 2 ∨ j = base + 3 := by omega
    unfold _mm_store_ps
    rcases hj with rfl | rfl | rfl | rfl
    · rw [if_pos rfl, scatterExpected_at first value j j 0 h0 h4 (by simp)]
      rfl
    · rw [if_neg (by omega), if_pos (by omega),
        scatterExpected_at first value base (base + 1) 1 h0 h4 rfl]
      rfl
    · rw [if_neg (by omega), if_neg (by omega), if_pos (by omega),
        scatterExpected_at first value base (base + 2) 2 h0 h4 rfl]
      rfl
    · rw [if_neg (by omega), if_neg (by omega), if_neg (by omega), if_pos (by omega),
        scatterExpected_at first value base (base + 3) 3 h0 h4 rfl]
      rfl

theorem lastStep_written (first buf : Int) (value : lint → vfloat) (base p : Int) (mem : Mem)
    (M0 : exec_t) (hM0 : ∀ i : Fin 4, M0.active i) (h0 : first ≤ base)
    (h4 : (base - first) % 4 = 0) (hp0 : 0 ≤ p) (hp4 : p < 4) :
    writtenRange first buf value base (base + p) mem
      ((⟨buf + base⟩ : vfloat_ref).assign (M0.and (firstLanes p)) mem
        (value (laneIndices base))) := by
  refine ⟨fun a ha => ?_, fun j hj1 hj2 => ?_⟩
  · apply assign_frame
    intro i hi
    have hlt := ((active_and_firstLanes M0 p i).mp hi).2
    show a ≠ buf + base + (i.val : Int)
    omega
  · have hj : ∃ i : Fin 4, j = base + (i.val : Int) :=
      ⟨⟨(j - base).toNat, by omega⟩, by simp only; omega⟩
    obtain ⟨i, hi⟩ := hj
    have hact : (M0.and (firstLanes p)).active i :=
      (active_and_firstLanes M0 p i).mpr ⟨hM0 i, by omega⟩
    have haddr : buf + j = (⟨buf + base⟩ : vfloat_ref)._value + (i.val : Int) := by
      show buf + j = buf + base + (i.val : Int)
      omega
    rw [haddr, assign_lane _ mem _ _ i hact, scatterExpected_at first value base j i h0 h4 hi]

theorem scatterBody_full (buf : Int) (value : lint → vfloat) (base : Int) (hb : isInt32 base)
    (M0 : exec_t) (hM0 : ∀ i : Fin 4, M0.active i) (mem : Mem) :
    scatterBody buf value (laneIndices base) ⟨M0, mem⟩ =
      Outcome.returned ⟨M0, _mm_store_ps mem (buf + base) (value (laneIndices base))._value⟩ := by
  have h := (movemask_full M0).mpr hM0
  unfold scatterBody
  rw [index_laneIndices base buf hb]
  unfold vfloat_ref.assign
  simp only [h, if_true]

theorem foreachLoop_scatter (first buf : Int) (value : lint → vfloat) (p N : Int)
    (M0 : exec_t) (hM0 : ∀ i : Fin 4, M0.active i) (hf : isInt32 first)
    (hN : first + N < 2147483648) (hNlt : N < 2147483648) (hN4 : N % 4 = 0) :
    ∀ (n fuel : Nat) (i : Int) (mem : Mem),
      n ≤ fuel → 0 ≤ i → i + 4 * (n : Int) = N →
      ∃ mem', foreachLoop N p (scatterBody buf value) fuel i (laneIndices (first + i))._value
          ⟨M0, mem⟩ =
          foreachPartial p (scatterBody buf value) (laneIndices (first + N))._value ⟨M0, mem'⟩
        ∧ writtenRange first buf value (first + i) (first + N) mem mem' := by
  obtain ⟨hf1, hf2⟩ := hf
  intro n
  induction n with
  | zero =>
    intro fuel i mem _ _ hi
    have hiN : i = N := by omega
    subst hiN
    exact ⟨mem, foreachLoop_exit _ _ _ fuel _ _ _ (by omega), writtenRange_refl _ _ _ _ _⟩
  | succ n ih =>
    intro fuel i mem hfuel hi0 hi
    obtain ⟨fuel', rfl⟩ : ∃ f, fuel = f + 1 := ⟨fuel - 1, by omega⟩
    have hlt : i < N := by omega
    have hwrap : wrap32 (i + programCount) = i + 4 := by
      apply wrap32_eq
      unfold isInt32 programCount
      constructor <;> omega
    have hstep := scatterBody_full buf value (first + i) ⟨by omega, by omega⟩ M0 hM0 mem
    obtain ⟨mem', hrun, hw⟩ := ih fuel' (i + 4)
      (_mm_store_ps mem (buf + (first + i)) (value (laneIndices (first + i)))._value)
      (by omega) (by omega) (by push_cast at hi ⊢; omega)
    have hidx : first + (i + 4) = first + i + 4 := by ring
    rw [hidx] at hrun hw
    refine ⟨mem', ?_, ?_⟩
    · have hcall : scatterBody buf value ⟨(laneIndices (first + i))._value⟩ ⟨M0, mem⟩ =
          Outcome.returned ⟨M0, _mm_store_ps mem (buf + (first + i))
            (value (laneIndices (first + i)))._value⟩ := hstep
      simp only [foreachLoop, hlt, if_true, hcall, Outcome.bind_returned, hwrap,
        laneIndices_step, hrun]
    · exact writtenRange_trans first buf value (first + i) (first + i + 4) (first + N) _ _ _
        (by omega) (by omega)
        (fullStep_written first buf value (first + i) mem (by omega) (by omega)) hw

theorem foreachPartial_scatter (first buf : Int) (value : lint → vfloat) (base p : Int)
    (M0 : exec_t) (hM0 : ∀ i : Fin 4, M0.active i) (hb : isInt32 base) (h0 : first ≤ base)
    (h4 : (base - first) % 4 = 0) (hp0 : 0 ≤ p) (hp4 : p < 4) (mem : Mem) :
    ∃ mem', foreachPartial p (scatterBody buf value) (laneIndices base)._value ⟨M0, mem⟩ =
        Outcome.returned ⟨M0, mem'⟩
      ∧ writtenRange first buf value base (base + p) mem mem' := by
  unfold foreachPartial
  by_cases hp : p > 0
  · refine ⟨(⟨buf + base⟩ : vfloat_ref).assign (M0.and (firstLanes p)) mem
      (value (laneIndices base)), ?_,
      lastStep_written first buf value base p mem M0 hM0 h0 h4 hp0 hp4⟩
    have hidx : (⟨(laneIndices base)._value⟩ : lint) = laneIndices base := rfl
    simp only [hp, if_true, partialMask_eq p ⟨by omega, by omega⟩, scatterBody, hidx,
      index_laneIndices base buf hb, Outcome.bind_returned]
  · have hp' : p = 0 := by omega
    subst hp'
    refine ⟨mem, ?_, ?_⟩
    · simp only [hp, if_false]
    · simpa using writtenRange_refl first buf value base mem

/-- C13 (as amended). For every pair of `int` values `first <= last` whose
difference `last - first` is itself representable as an `int`, every buffer
and every value function, running
`spmd_foreach(first, last, [&](const lint& idx) { idx[buf] = value; })` with
all lanes active in the ambient mask returns with that mask, writes `buf[j]`
for every `j` with `first <= j < last` (with the lane of the value computed
for the invocation covering `j`), and leaves every element outside
`[first, last)` unchanged. -/
theorem spmd_foreach_scatter (first last buf : Int) (value : lint → vfloat) (M0 : exec_t)
    (mem : Mem) (hfirst : isInt32 first) (hlast : isInt32 last) (hle : first ≤ last)
    (hlen : last - first < 2147483648) (hM0 : ∀ i : Fin 4, M0.active i) :
    ∃ mem', spmd_foreach first last (scatterBody buf value) ⟨M0, mem⟩ =
        Outcome.returned ⟨M0, mem'⟩
      ∧ (∀ j : Int, first ≤ j → j < last → mem' (buf + j) = scatterExpected first value j)
      ∧ (∀ a : Int, (a < buf + first ∨ buf + last ≤ a) → mem' a = mem a) := by
  obtain ⟨hf1, hf2⟩ := hfirst
  obtain ⟨hl1, hl2⟩ := hlast
  have hd : wrap32 (last - first) = last - first :=
    wrap32_eq _ ⟨by omega, hlen⟩
  have hdiv : Int.tdiv (last - first) programCount = (last - first) / 4 :=
    Int.tdiv_eq_ediv (by omega) (by decide)
  have hmod : Int.tmod (last - first) programCount = (last - first) % 4 :=
    Int.tmod_eq_emod (by omega) (by decide)
  have hN : wrap32 ((last - first) / 4 * programCount) = 4 * ((last - first) / 4) := by
    have e : (last - first) / 4 * programCount = 4 * ((last - first) / 4) := by
      unfold programCount; ring
    rw [e]
    exact wrap32_eq _ ⟨by omega, by omega⟩
  obtain ⟨m1, hrun1, hw1⟩ := foreachLoop_scatter first buf value ((last - first) % 4)
    (4 * ((last - first) / 4)) M0 hM0 ⟨hf1, hf2⟩ (by omega) (by omega) (by omega)
    ((last - first) / 4).toNat (4 * ((last - first) / 4)).toNat 0 mem
    (by omega) (le_refl 0) (by omega)
  obtain ⟨m2, hrun2, hw2⟩ := foreachPartial_scatter first buf value
    (first + 4 * ((last - first) / 4)) ((last - first) % 4) M0 hM0 ⟨by omega, by omega⟩
    (by omega) (by omega) (by omega) (by omega) m1
  simp only [add_zero] at hrun1 hw1
  have hw := writtenRange_trans first buf value first (first + 4 * ((last - first) / 4))
    (first + 4 * ((last - first) / 4) + (last - first) % 4) mem m1 m2 (by omega) (by omega)
    hw1 hw2
  have hend : first + 4 * ((last - first) / 4) + (last - first) % 4 = last := by omega
  rw [hend] at hw
  refine ⟨m2, ?_, hw.2, hw.1⟩
  unfold spmd_foreach
  simp only [hle, not_true_eq_false, if_false, hd, hdiv, hmod, hN, laneIndices_first, hrun1,
    hrun2]

/-- C13, witness: over the range `[0, 10)` with `buf` at element 100, every
element `100 .. 109` is written and elements 110 and 111, lanes 2 and 3 of the
last invocation, keep their old content. -/
theorem spmd_foreach_scatter_witness :
    (∃ mem', spmd_foreach 0 10 (scatterBody 100 fun idx => ⟨idx._value⟩)
          ⟨exec_init, fun _ => Fin.ofNat 77⟩ = Outcome.returned ⟨exec_init, mem'⟩
        ∧ (∀ j : Int, 0 ≤ j → j < 10 →
            mem' (100 + j) = scatterExpected 0 (fun idx => ⟨idx._value⟩) j)
        ∧ (∀ a : Int, (a < 100 + 0 ∨ 100 + 10 ≤ a) → mem' a = (fun _ => Fin.ofNat 77) a))
      ∧ (spmd_foreach 0 10 (scatterBody 100 fun idx => ⟨idx._value⟩)
          ⟨exec_init, fun _ => Fin.ofNat 77⟩).state.user 109 = Fin.ofNat 9
      ∧ (spmd_foreach 0 10 (scatterBody 100 fun idx => ⟨idx._value⟩)
          ⟨exec_init, fun _ => Fin.ofNat 77⟩).state.user 110 = Fin.ofNat 77
      ∧ (spmd_foreach 0 10 (scatterBody 100 fun idx => ⟨idx._value⟩)
          ⟨exec_init, fun _ => Fin.ofNat 77⟩).state.user 111 = Fin.ofNat 77 :=
  ⟨spmd_foreach_scatter 0 10 100 (fun idx => ⟨idx._value⟩) exec_init (fun _ => Fin.ofNat 77)
      (by decide) (by decide) (by decide) (by decide) (by decide),
   by decide, by decide, by decide⟩

/-- C13, counterexample to the claim as stated (every `first <= last`). For
`first = -2147483648` and `last = 1` the claim asks for `buf[first]` to be
written with lane 0 of the value; the `int` difference `last - first` wraps to
`-2147483647`, no invocation is made and `buf[first]` keeps its old content. -/
theorem spmd_foreach_scatter_counterexample :
    isInt32 (-2147483648) ∧ isInt32 1 ∧ (-2147483648 : Int) ≤ 1
      ∧ (∀ i : Fin 4, exec_init.active i)
      ∧ wrap32 (1 - (-2147483648)) = -2147483647
      ∧ scatterExpected (-2147483648) (fun _ => ⟨m128.ofNats 5 6 7 8⟩) (-2147483648) =
          Fin.ofNat 5
      ∧ (spmd_foreach (-2147483648) 1 (scatterBody 0 fun _ => ⟨m128.ofNats 5 6 7 8⟩)
          ⟨exec_init, fun _ => Word32.zero⟩).state.user (0 + (-2147483648)) = Word32.zero := by
  decide

end CppSPMD
